import Mathlib

/-!
Verification of the FirstRead streaming contract-generation pipeline.

The repository is a Next.js front end (under `apps/web`) talking to a
FastAPI back end over server-sent events.  The back-end source is not part
of this tree; where a definition models the back end it is written from the
design document and marked `Modelled from the spec:` in its doc comment.
Front-end functions (`formatClauseBreaks`, the SSE line readers of
`use-contract-generation.ts` and the contract editor) are embedded directly
from their TypeScript sources.
-/

namespace FirstRead

/-- Characters accepted by the JavaScript regular-expression class `\s`
(ASCII whitespace plus no-break space and BOM; exotic Unicode space
separators are outside the inputs this development reasons about). -/
def isJsSpace (c : Char) : Bool :=
  c = ' ' || c = '\t' || c = '\n' || c = '\r' ||
  c = Char.ofNat 11 || c = Char.ofNat 12 || c = Char.ofNat 160 || c = Char.ofNat 65279

/-- The character class `[A-Za-z]`. -/
def isAsciiLetter (c : Char) : Bool :=
  ('a' ≤ c && c ≤ 'z') || ('A' ≤ c && c ≤ 'Z')

/-- ASCII lower-casing, the fragment of `String.prototype.toLowerCase`
relevant to the `<br>`/`<br/>`/`<p>` tags the formatters look back for. -/
def asciiLower (c : Char) : Char :=
  if 'A' ≤ c && c ≤ 'Z' then Char.ofNat (c.toNat + 32) else c

/-- Modelled from the spec: the Section Writer's chunk-boundary rule
(§4.3).  The back-end splitter is not in the tree; the spec says raw model
output is re-split on embedded line breaks so that one `data:` line carries
one chunk.  `splitNl` splits a character list at every newline. -/
def splitNl : List Char → List (List Char)
  | [] => [[]]
  | c :: cs =>
    let r := splitNl cs
    if c = '\n' then [] :: r else (c :: r.headD []) :: r.tail

/-- Modelled from the spec: chunking a raw model string for the wire (§4.3). -/
def chunkText (raw : String) : List String :=
  (splitNl raw.data).map fun l => ⟨l⟩

/-- A payload is transport-safe when it contains no line break. -/
def newlineFree (s : String) : Bool :=
  !(s.data.contains '\n')

/-! ### The clause-break formatters (front end)

`apps/web/src/hooks/use-contract-generation.ts` exports `formatClauseBreaks`,
two global regex replaces over the accumulated HTML; a second, local variant
lives in `apps/web/src/components/contract-generator.tsx`.  The embedding
mirrors JavaScript `String.replace` with the `g` flag: scan left to right,
at each position try the pattern (the replacer receives the match offset and
the original subject string), and resume after a match. -/

/-- The lookahead `(?=\s+[A-Za-z])`: one or more whitespace characters
followed by an ASCII letter. -/
def lookaheadSpLetter : List Char → Bool
  | [] => false
  | c :: cs => isJsSpace c && afterSpacesLetter cs
where
  /-- Zero or more further whitespace characters, then an ASCII letter. -/
  afterSpacesLetter : List Char → Bool
    | [] => false
    | c :: cs => if isJsSpace c then afterSpacesLetter cs else isAsciiLetter c

/-- Length of a match of `\d+\.\d+(?:\.\d+)?(?=\s+[A-Za-z])` starting at the
head of `r`, if any.  Greedy digit runs need no backtracking here: a shorter
`\d+` leaves a digit where `.` or whitespace is required, and dropping the
optional third group leaves a `.` where whitespace is required. -/
def numMatchLen (r : List Char) : Option Nat :=
  let d1 := r.takeWhile Char.isDigit
  if d1.isEmpty then none else
  match r.drop d1.length with
  | '.' :: r2 =>
    let d2 := r2.takeWhile Char.isDigit
    if d2.isEmpty then none else
    let len2 := d1.length + 1 + d2.length
    match r2.drop d2.length with
    | '.' :: r4 =>
      let d3 := r4.takeWhile Char.isDigit
      if d3.isEmpty then
        if lookaheadSpLetter ('.' :: r4) then some len2 else none
      else if lookaheadSpLetter (r4.drop d3.length) then some (len2 + 1 + d3.length)
      else none
    | r3 => if lookaheadSpLetter r3 then some len2 else none
  | _ => none

/-- The lower-cased multi-letter alternatives of the lettered-sub-clause
pattern: `i{1,3}|iv|v|vi{1,3}|ix|x` beyond what `[a-z]` already covers. -/
def romanWords : List (List Char) :=
  [['i','i'], ['i','i','i'], ['i','v'], ['v','i'], ['v','i','i'],
   ['v','i','i','i'], ['i','x']]

/-- Whether `w` can be produced by the group `([a-z]|i{1,3}|iv|v|vi{1,3}|ix|x)`
under the `i` flag: any single ASCII letter, or a roman numeral of two to
four letters. -/
def letterBodyOk (w : List Char) : Bool :=
  match w with
  | [c] => isAsciiLetter c
  | _ => romanWords.contains (w.map asciiLower)

/-- One alternative of the lettered pattern: body of `k` letters, a closing
parenthesis, then the whitespace-letter lookahead. -/
def letTry (rest : List Char) (k : Nat) : Option Nat :=
  if (rest.take k).length = k && letterBodyOk (rest.take k) then
    match rest.drop k with
    | ')' :: r2 => if lookaheadSpLetter r2 then some (k + 2) else none
    | _ => none
  else none

/-- Length of a match of `\(([a-z]|i{1,3}|iv|v|vi{1,3}|ix|x)\)(?=\s+[A-Za-z])`
(case-insensitive) at the head of `r`, if any.  At most one body length can
be followed by `)`, so trying lengths in order agrees with the ordered
alternation of the JavaScript engine. -/
def letMatchLen (r : List Char) : Option Nat :=
  match r with
  | '(' :: rest =>
    ((letTry rest 1).orElse fun _ =>
      (letTry rest 2).orElse fun _ =>
        (letTry rest 3).orElse fun _ => letTry rest 4)
  | _ => none

/-- The replacer guard shared by both formatters: keep the match unchanged
when it is at offset 0, directly preceded by a newline, or the (lower-cased)
five-character window before it ends with one of `tags`. -/
def suppressedAt (s : List Char) (i : Nat) (tags : List (List Char)) : Bool :=
  decide (i = 0) ||
  s.get? (i - 1) == some '\n' ||
  tags.any fun t => t.isSuffixOf (((s.take i).drop (i - 5)).map asciiLower)

/-- One step of `String.replace` with a global regex: emit the replacement at
a match and resume after it, else copy one character.  `fuel` only bounds the
recursion; `s.length` is always enough because matches are non-empty. -/
def scanFrom (mlen : List Char → Option Nat)
    (repl : List Char → Nat → Nat → List Char)
    (s : List Char) : Nat → Nat → List Char
  | 0, _ => []
  | fuel + 1, i =>
    if i < s.length then
      match mlen (s.drop i) with
      | some L => repl s i L ++ scanFrom mlen repl s fuel (i + L)
      | none => (s.drop i).take 1 ++ scanFrom mlen repl s fuel (i + 1)
    else []

/-- `String.replace` with a global regex over the whole subject. -/
def jsReplace (mlen : List Char → Option Nat)
    (repl : List Char → Nat → Nat → List Char) (s : List Char) : List Char :=
  scanFrom mlen repl s s.length 0

/-- The matched text itself: `L` characters starting at offset `i`. -/
def matchText (s : List Char) (i L : Nat) : List Char :=
  (s.drop i).take L

/-- Tags suppressing a break in the hook formatter: `<br>`, `<br/>`, `<p>`. -/
def hookTags : List (List Char) :=
  [['<','b','r','>'], ['<','b','r','/','>'], ['<','p','>']]

/-- Tags suppressing a break in the component formatter: `<br>` and the
four-character `<br/` its source tests for. -/
def componentTags : List (List Char) :=
  [['<','b','r','>'], ['<','b','r','/']]

/-- Replacer of the hook's numbered pass: prepend `<br/><br/>` unless
suppressed. -/
def replNumHook (s : List Char) (i L : Nat) : List Char :=
  (if suppressedAt s i hookTags then [] else "<br/><br/>".data) ++ matchText s i L

/-- Replacer of the hook's lettered pass: prepend `<br/>` unless suppressed. -/
def replLetHook (s : List Char) (i L : Nat) : List Char :=
  (if suppressedAt s i hookTags then [] else "<br/>".data) ++ matchText s i L

/-- Replacer of the component's single pass: prepend `<br/>` unless
suppressed (note the different tag list). -/
def replNumComponent (s : List Char) (i L : Nat) : List Char :=
  (if suppressedAt s i componentTags then [] else "<br/>".data) ++ matchText s i L

/-- `formatClauseBreaks` as exported from
`apps/web/src/hooks/use-contract-generation.ts`: a numbered-sub-section pass
inserting a double break, then a lettered-sub-section pass inserting a
single break.  (The `if (!html) return html` guard is the identity on the
empty string and needs no separate case.) -/
def formatClauseBreaks (html : String) : String :=
  ⟨jsReplace letMatchLen replLetHook (jsReplace numMatchLen replNumHook html.data)⟩

/-- The local `formatClauseBreaks` of
`apps/web/src/components/contract-generator.tsx`: a single numbered pass
inserting a single `<br/>`, with the `<br/`-typo lookback. -/
def formatClauseBreaksComponent (html : String) : String :=
  ⟨jsReplace numMatchLen replNumComponent html.data⟩

/-! ### String helpers shared by the front-end embeddings -/

/-- JavaScript `String.prototype.startsWith` (code points, ASCII inputs). -/
def strStarts (s pre : String) : Bool :=
  pre.data.isPrefixOf s.data

/-- Whether `sub` occurs contiguously inside `s`. -/
def listInfix (sub : List Char) : List Char → Bool
  | [] => sub.isEmpty
  | c :: rest => sub.isPrefixOf (c :: rest) || listInfix sub rest

/-- JavaScript `String.prototype.includes`. -/
def strContains (s sub : String) : Bool :=
  listInfix sub.data s.data

/-- JavaScript `String.prototype.slice(n)` for a non-negative `n`. -/
def strDrop (s : String) (n : Nat) : String :=
  ⟨s.data.drop n⟩

/-- Model of `JSON.parse` restricted to the identifier payloads the back end
emits, of the exact shape `{"<key>": "<value>"}`; anything else throws,
which the callers catch by treating the line as plain content. -/
def parseIdJson (key s : String) : Option String :=
  let pre := ("\x7b\"" ++ key ++ "\": \"").data
  let r := s.data.drop pre.length
  if pre.isPrefixOf s.data && ['"', '\x7d'].isSuffixOf r && 2 ≤ r.length then
    some ⟨r.take (r.length - 2)⟩
  else none

/-- Splitting buffered SSE text into complete lines, keeping the trailing
piece as the new buffer: `buffer += chunk; lines = buffer.split("\n");
buffer = lines.pop()`. -/
def sseSplit (buf chunk : String) : List String × String :=
  let parts := (splitNl (buf.data ++ chunk.data)).map fun l => (⟨l⟩ : String)
  (parts.dropLast, parts.getLastD "")

/-! ### The generation hook's stream reader

`generateContract` in `apps/web/src/hooks/use-contract-generation.ts`:
reads the response body chunk by chunk, splits it into lines, and folds each
line into the component state.  A `done`/`cancelled` event breaks out of the
per-chunk line loop (not out of the read loop); after the stream ends,
non-empty content without a `done` event is marked complete anyway. -/

/-- The state the hook accumulates (`contractData` plus `error`). -/
structure GenState where
  contractId : Option String
  content : String
  isComplete : Bool
  error : Option String
deriving Repr, DecidableEq

/-- Initial hook state. -/
def initGenState : GenState :=
  ⟨none, "", false, none⟩

/-- Handling of one `data: ` payload: identifier payloads set `contractId`,
everything else (including payloads whose parse throws) is appended to the
content with a trailing newline. -/
def genData (st : GenState) (d : String) : GenState :=
  if strContains d "\"contract_id\"" then
    match parseIdJson "contract_id" d with
    | some id => { st with contractId := some id }
    | none => { st with content := st.content ++ d ++ "\n" }
  else { st with content := st.content ++ d ++ "\n" }

/-- One line of the generation stream; the boolean is the `break` out of the
line loop.  Lines matching none of the tested heads (`event: error` among
them) are skipped. -/
def genLine (st : GenState) (l : String) : GenState × Bool :=
  if strStarts l "data: " then (genData st (strDrop l 6), false)
  else if strStarts l "event: done" then ({ st with isComplete := true }, true)
  else if strStarts l "event: cancelled" then
    ({ st with error := some "Contract generation was cancelled" }, true)
  else (st, false)

/-- The per-chunk line loop with its `break`. -/
def genLines (st : GenState) : List String → GenState
  | [] => st
  | l :: ls =>
    match genLine st l with
    | (st', true) => st'
    | (st', false) => genLines st' ls

/-- One read of the response body: split off complete lines, process them. -/
def genStep (acc : GenState × String) (chunk : String) : GenState × String :=
  let r := sseSplit acc.2 chunk
  (genLines acc.1 r.1, r.2)

/-- The after-loop rule: a stream that ended with content but no `done`
event is marked complete. -/
def finishStream (st : GenState) : GenState :=
  if !st.isComplete && st.content != "" then { st with isComplete := true } else st

/-- The whole reader: fold all reads, then apply the stream-end rule. -/
def runGenerate (chunks : List String) : GenState :=
  finishStream (chunks.foldl genStep (initGenState, "")).1

/-! ### The edit component's stream reader

`handleEditContract` in the contract LLM editor: same line framing, but a
`new_contract_id` payload completes the edit and returns from the whole
handler, `edit_id` payloads are skipped, content is appended without a
newline, and `edit_complete`/`cancelled`/`error` events break the line
loop (the last two setting an error message). -/

/-- The state the editor accumulates. -/
structure EditState where
  editedContent : String
  error : Option String
  completedWith : Option String
deriving Repr, DecidableEq

/-- Control flow after one line of the edit stream. -/
inductive EditSignal where
  | next
  | brk
  | ret
deriving Repr, DecidableEq

/-- One line of the edit stream. -/
def editLine (st : EditState) (l : String) : EditState × EditSignal :=
  if strStarts l "data: " then
    let d := strDrop l 6
    if strContains d "\"new_contract_id\"" then
      match parseIdJson "new_contract_id" d with
      | some id => ({ st with completedWith := some id }, .ret)
      | none => ({ st with editedContent := st.editedContent ++ d }, .next)
    else if strContains d "\"edit_id\"" then (st, .next)
    else ({ st with editedContent := st.editedContent ++ d }, .next)
  else if strStarts l "event: edit_complete" then (st, .brk)
  else if strStarts l "event: cancelled" then
    ({ st with error := some "Edit was cancelled" }, .brk)
  else if strStarts l "event: error" then
    ({ st with error := some "Edit failed" }, .brk)
  else (st, .next)

/-- The edit line loop; the boolean reports the handler-level `return`. -/
def editLines (st : EditState) : List String → EditState × Bool
  | [] => (st, false)
  | l :: ls =>
    match editLine st l with
    | (st', .next) => editLines st' ls
    | (st', .brk) => (st', false)
    | (st', .ret) => (st', true)

/-- One read of the edit response body; once returned, reads are ignored. -/
def editStep (acc : EditState × String × Bool) (chunk : String) :
    EditState × String × Bool :=
  if acc.2.2 then acc
  else
    let r := sseSplit acc.2.1 chunk
    let st' := editLines acc.1 r.1
    (st'.1, r.2, st'.2)

/-- The whole edit reader. -/
def runEdit (chunks : List String) : EditState :=
  (chunks.foldl editStep (⟨"", none, none⟩, "", false)).1

/-! ### The back-end core, modelled from the spec

The FastAPI generation service is not part of this tree; the definitions
below are written from the design document (§3–§4.5): output events, the
one-shot cancellation token observed at numbered checkpoints, the section
writer with its per-chunk cancellation checks, the orchestrator state
machine, the bounded retry policy, and the SSE wire framing. -/

/-- Modelled from the spec: the externally observed `OutputEvent` (§3). -/
inductive OutputEvent where
  | jobStarted (jobId : String)
  | contentChunk (text : String)
  | sectionBoundary
  | completed
  | cancelled
  | failed (reason : String)
deriving Repr, DecidableEq

/-- Modelled from the spec: the per-job `CancellationToken` (§3), a one-shot
signal.  `setFrom = some m` means a cancel request lands between checkpoint
`m - 1` and checkpoint `m`; once set it stays set at every later
checkpoint. -/
structure CancelToken where
  setFrom : Option Nat
deriving Repr, DecidableEq

/-- Whether checkpoint `k` observes the token as cancelled. -/
def isCancelled (tok : CancelToken) (k : Nat) : Bool :=
  match tok.setFrom with
  | some m => decide (m ≤ k)
  | none => false

/-- Modelled from the spec: the Section Writer's emission loop (§4.3) —
cancellation is checked at each sub-chunk emission.  Returns the emitted
chunk events, the next checkpoint number, and whether a cancellation was
observed mid-section. -/
def emitChunks (tok : CancelToken) : Nat → List String → List OutputEvent × Nat × Bool
  | k, [] => ([], k, false)
  | k, c :: cs =>
    if isCancelled tok k then ([], k, true)
    else
      let r := emitChunks tok (k + 1) cs
      (OutputEvent.contentChunk c :: r.1, r.2)

/-- Modelled from the spec: the orchestrator's section loop (§4.2 steps
3–5): check cancellation before each section, relay the section writer's
chunks, emit a boundary after each section, `Completed` after the last,
`Failed` when a section's retries are exhausted, `Cancelled` when the token
is observed. -/
def runSections (tok : CancelToken) : Nat → List (Except String String) → List OutputEvent
  | _, [] => [OutputEvent.completed]
  | k, sec :: rest =>
    if isCancelled tok k then [OutputEvent.cancelled]
    else
      match sec with
      | .error reason => [OutputEvent.failed reason]
      | .ok raw =>
        let r := emitChunks tok (k + 1) (chunkText raw)
        if r.2.2 then r.1 ++ [OutputEvent.cancelled]
        else r.1 ++ OutputEvent.sectionBoundary :: runSections tok r.2.1 rest

/-- Modelled from the spec: `PlanResult` (§3). -/
structure PlanResult where
  title : String
  headings : List String
deriving Repr, DecidableEq

/-- Modelled from the spec: the Generation Orchestrator `start` (§4.2):
emit `JobStarted` first, run the plan stage (checkpoints 0 and 1 cover a
cancellation before or during the plan call), treat an empty plan as a
non-transient failure (§7, `MalformedPlan`), then drive the sections. -/
def orchestrate (jobId : String) (tok : CancelToken) (plan : Except String PlanResult)
    (secOutcome : Nat → Except String String) : List OutputEvent :=
  OutputEvent.jobStarted jobId ::
    (if isCancelled tok 0 || isCancelled tok 1 then [OutputEvent.cancelled]
     else
       match plan with
       | .error reason => [OutputEvent.failed reason]
       | .ok p =>
         if p.headings.isEmpty then [OutputEvent.failed "malformed plan"]
         else runSections tok 2 ((List.range p.headings.length).map secOutcome))

/-- Modelled from the spec: the classified outcome of one model-call
attempt (§4.4, §7). -/
inductive CallResult (α : Type) where
  | ok (value : α)
  | transient (message : String)
  | fatal (message : String)
deriving Repr, DecidableEq

/-- Whether an attempt outcome is transient-classified. -/
def CallResult.isTransient {α : Type} : CallResult α → Bool
  | .transient _ => true
  | _ => false

/-- Modelled from the spec: the Retry Policy (§4.4) around one logical model
call.  `f i` is the outcome of attempt `i`; the result carries the number of
attempts actually made.  Backoff delays and jitter shift timing only and are
not modelled. -/
def retryGo {α : Type} (f : Nat → CallResult α) : Nat → Nat → Except String α × Nat
  | _, 0 => (.error "retries exhausted", 0)
  | i, budget + 1 =>
    match f i with
    | .ok a => (.ok a, 1)
    | .fatal e => (.error e, 1)
    | .transient e =>
      if budget = 0 then (.error e, 1)
      else
        let r := retryGo f (i + 1) budget
        (r.1, r.2 + 1)

/-- A retried call with at most `maxAttempts` attempts. -/
def retryRun {α : Type} (maxAttempts : Nat) (f : Nat → CallResult α) :
    Except String α × Nat :=
  retryGo f 0 maxAttempts

/-- The orchestrator with every model call wrapped in the retry policy:
`planCalls i` is plan attempt `i`, `secCalls s i` is attempt `i` of
section `s`. -/
def orchestrateWithRetry (jobId : String) (tok : CancelToken) (maxAttempts : Nat)
    (planCalls : Nat → CallResult PlanResult)
    (secCalls : Nat → Nat → CallResult String) : List OutputEvent :=
  orchestrate jobId tok (retryRun maxAttempts planCalls).1
    fun i => (retryRun maxAttempts (secCalls i)).1

/-! ### The SSE wire framing (§6) -/

/-- Modelled from the spec: one framed line — `data: <payload>` for content,
`event: <name>` for lifecycle markers. -/
inductive WireLine where
  | data (payload : String)
  | event (name : String)
deriving Repr, DecidableEq

/-- Whether a wire line is a `data:` payload line. -/
def WireLine.isData : WireLine → Bool
  | .data _ => true
  | .event _ => false

/-- The identifier payload shape. -/
def idPayload (key id : String) : String :=
  "\x7b\"" ++ key ++ "\": \"" ++ id ++ "\"\x7d"

/-- Whether a payload carries a job/document identifier key. -/
def hasIdKey (p : String) : Bool :=
  strContains p "\"contract_id\"" || strContains p "\"new_contract_id\""

/-- Modelled from the spec: framing of one generation event (§6). -/
def encodeEvent : OutputEvent → WireLine
  | .jobStarted id => WireLine.data (idPayload "contract_id" id)
  | .contentChunk t => WireLine.data t
  | .sectionBoundary => WireLine.data ""
  | .completed => WireLine.event "done"
  | .cancelled => WireLine.event "cancelled"
  | .failed _ => WireLine.event "error"

/-- The framed generation stream. -/
def wireEncode (evs : List OutputEvent) : List WireLine :=
  evs.map encodeEvent

/-- Modelled from the spec: the Edit Orchestrator (§4.5) on the wire, as the
edit component consumes it — an `edit_id` payload first, then the single
rewrite section's chunks, then on success the `new_contract_id` payload and
the `edit_complete` marker; cancellation and failure mirror §4.2. -/
def editWire (editId newId : String) (tok : CancelToken)
    (outcome : Except String String) : List WireLine :=
  WireLine.data (idPayload "edit_id" editId) ::
    (if isCancelled tok 0 || isCancelled tok 1 then [WireLine.event "cancelled"]
     else
       match outcome with
       | .error _ => [WireLine.event "error"]
       | .ok text =>
         let r := emitChunks tok 2 (chunkText text)
         if r.2.2 then r.1.map encodeEvent ++ [WireLine.event "cancelled"]
         else
           r.1.map encodeEvent ++
             [WireLine.data (idPayload "new_contract_id" newId),
              WireLine.event "edit_complete"])

/-! ### The cancellation registry and stop endpoints -/

/-- Modelled from the spec: the process-wide Cancellation Registry (§4.1),
one live token per job id; released (terminal) jobs are absent. -/
structure Registry where
  tokens : List (String × Bool)
deriving Repr, DecidableEq

/-- The live token for a job id, if any. -/
def Registry.lookup (reg : Registry) (jobId : String) : Option Bool :=
  (reg.tokens.find? fun t => t.1 == jobId).map Prod.snd

/-- Modelled from the spec: `cancel(jobId)` (§4.1) — set the live token and
report `true`, or report `false` for an unknown or already-released job. -/
def cancelJob (reg : Registry) (jobId : String) : Registry × Bool :=
  match reg.lookup jobId with
  | some _ =>
    (⟨reg.tokens.map fun t => if t.1 == jobId then (t.1, true) else t⟩, true)
  | none => (reg, false)

/-- An HTTP-ish response of the back-end stop endpoint. -/
structure StopResponse where
  status : Nat
  cancelled : Bool
deriving Repr, DecidableEq

/-- Modelled from the spec: the back-end cancel endpoint (§6) — invoke
`cancel(jobId)` and always answer success, reporting the no-op as `false`
in the body. -/
def stopEndpoint (reg : Registry) (jobId : String) : Registry × StopResponse :=
  let r := cancelJob reg jobId
  (r.1, ⟨200, r.2⟩)

/-- A response of the Next.js proxy route. -/
structure RouteResponse where
  status : Nat
deriving Repr, DecidableEq

/-- The `DELETE` handler of
`apps/web/src/app/api/contracts/[contractId]/stop/route.ts`: reject a
missing session (401) or empty id (400), otherwise forward to the back-end
stop endpoint, passing an error status through and answering 200 on
success. -/
def webStopRoute (hasSession : Bool) (contractId : String) (reg : Registry) :
    Registry × RouteResponse :=
  if !hasSession then (reg, ⟨401⟩)
  else if contractId == "" then (reg, ⟨400⟩)
  else
    let r := stopEndpoint reg contractId
    if 200 ≤ r.2.status && r.2.status < 300 then (r.1, ⟨200⟩)
    else (r.1, ⟨r.2.status⟩)

/-! ### Auxiliary observations used by the theorem statements -/

/-- Whether an event is the `JobStarted` lifecycle event. -/
def isStartEv : OutputEvent → Bool
  | .jobStarted _ => true
  | _ => false

/-- Whether an event is terminal (`Completed`, `Cancelled` or `Failed`). -/
def isTerminalEv : OutputEvent → Bool
  | .completed => true
  | .cancelled => true
  | .failed _ => true
  | _ => false

/-- Whether an event is a content chunk. -/
def isChunkEv : OutputEvent → Bool
  | .contentChunk _ => true
  | _ => false

/-- The `data:` payloads of a framed stream, in order. -/
def dataPayloads (ws : List WireLine) : List String :=
  ws.filterMap fun w =>
    match w with
    | .data p => some p
    | .event _ => none

/-- Whether the pattern recognised by `mlen` matches anywhere in `s`. -/
def anyMatch (mlen : List Char → Option Nat) (s : List Char) : Bool :=
  (List.range s.length).any fun i => (mlen (s.drop i)).isSome

/-! ### Infrastructure for the idempotence of `formatClauseBreaks`

The formatters only ever insert `<br/>`-blocks in front of matches, so a
formatted string is the original with blocks spliced in.  The development
below characterises the two regex matchers by explicit shapes, represents
block-splicing as an annotation (a list of block/character pairs), and
relates matches and replacer contexts across the splice. -/

/-- Characters a numbered-pattern match body can contain. -/
def isNumBodyChar (c : Char) : Bool :=
  c.isDigit || c = '.'

/-- Characters a lettered-pattern match body can contain. -/
def isLetBodyChar (c : Char) : Bool :=
  c = '(' || c = ')' || isAsciiLetter c

/-- The characters inserted blocks are made of. -/
def inBlockAlpha (c : Char) : Bool :=
  c = '<' || c = 'b' || c = 'r' || c = '/' || c = '>'

/-- Explicit shape of a successful whitespace-then-letter lookahead:
`n ≥ 1` spaces, then a letter. -/
def LookShape (rs : List Char) (n : Nat) : Prop :=
  ∃ sps c tail, rs = sps ++ c :: tail ∧ sps.length = n ∧ 1 ≤ n ∧
    (∀ x ∈ sps, isJsSpace x = true) ∧ isAsciiLetter c = true

/-- Explicit shape of a numbered-pattern match of length `L`. -/
def NumShape (r : List Char) (L : Nat) : Prop :=
  ∃ d1 d2 opt rest, r = d1 ++ '.' :: (d2 ++ (opt ++ rest)) ∧
    d1 ≠ [] ∧ (∀ c ∈ d1, c.isDigit = true) ∧
    d2 ≠ [] ∧ (∀ c ∈ d2, c.isDigit = true) ∧
    (opt = [] ∨ ∃ d3, opt = '.' :: d3 ∧ d3 ≠ [] ∧ (∀ c ∈ d3, c.isDigit = true)) ∧
    L = d1.length + 1 + d2.length + opt.length ∧
    lookaheadSpLetter rest = true

/-- Explicit shape of a lettered-pattern match of length `L`. -/
def LetShape (r : List Char) (L : Nat) : Prop :=
  ∃ w rest, r = '(' :: (w ++ ')' :: rest) ∧ letterBodyOk w = true ∧
    L = w.length + 2 ∧ lookaheadSpLetter rest = true

/-- An annotated string: each original character optionally preceded by an
inserted block. -/
abbrev Annot := List (List Char × Char)

/-- The original characters of an annotation. -/
def origStr (A : Annot) : List Char :=
  A.map Prod.snd

/-- The spliced (formatted) string of an annotation. -/
def renderStr (A : Annot) : List Char :=
  A.flatMap fun bc => bc.1 ++ [bc.2]

/-- The block attached before original position `p` (empty when none). -/
def blkAt (A : Annot) (p : Nat) : List Char :=
  ((A.get? p).map Prod.fst).getD []

/-- The position of original character `p` inside the rendered string. -/
def wpos (A : Annot) (p : Nat) : Nat :=
  (renderStr (A.take p)).length + (blkAt A p).length

/-- A well-formed inserted block: starts with `<`, ends with `<br/>`, made
of block characters only. -/
def BlockOK (b : List Char) : Prop :=
  b.head? = some '<' ∧ "<br/>".data.isSuffixOf b = true ∧
    ∀ c ∈ b, inBlockAlpha c = true

/-- Position `j` is not strictly inside any match of `mlen` in `s`. -/
def FreeAt (mlen : List Char → Option Nat) (s : List Char) (j : Nat) : Prop :=
  ¬ ∃ q Lq, mlen (s.drop q) = some Lq ∧ q < j ∧ j < q + Lq

/-- Every free match of `mlen` in `s` sits in a suppressed context: the
replacer would leave it unchanged, so the global replace is the identity. -/
def StableStr (mlen : List Char → Option Nat) (tags : List (List Char))
    (s : List Char) : Prop :=
  ∀ j L, mlen (s.drop j) = some L → FreeAt mlen s j →
    suppressedAt s j tags = true

/-- The positions the left-to-right global-replace scan visits, starting
from `start`. -/
inductive Reach (mlen : List Char → Option Nat) (s : List Char) (start : Nat) : Nat → Prop where
  | refl : Reach mlen s start start
  | step {i : Nat} : Reach mlen s start i → i < s.length →
      mlen (s.drop i) = none → Reach mlen s start (i + 1)
  | jump {i L : Nat} : Reach mlen s start i → i < s.length →
      mlen (s.drop i) = some L → Reach mlen s start (i + L)

/-- The facts the idempotence argument needs about one matcher: a match of
length `L` is followed by its lookahead inside an examined region of `E`
characters — body characters, then whitespace, then one letter — and the
match is determined by those `E` characters alone. -/
def MatchDet (mlen : List Char → Option Nat) (bodyChar : Char → Bool) : Prop :=
  ∀ r L, mlen r = some L → ∃ E,
    3 ≤ L ∧ L + 2 ≤ E ∧ E ≤ r.length ∧
    (∀ k c, k < L → r[k]? = some c → bodyChar c = true) ∧
    (∀ k c, L ≤ k → k < E - 1 → r[k]? = some c → isJsSpace c = true) ∧
    (∀ c, r[E - 1]? = some c → isAsciiLetter c = true) ∧
    (∀ r', r.take E = r'.take E → mlen r' = some L)

/-- The annotation a global replace builds: an inserted block in front of
each unsuppressed match it visits. -/
def annotate (mlen : List Char → Option Nat) (tags : List (List Char))
    (ins : List Char) (s : List Char) : Nat → Nat → Annot
  | 0, _ => []
  | fuel + 1, i =>
    if h : i < s.length then
      match mlen (s.drop i) with
      | some L =>
        ((if suppressedAt s i tags then [] else ins), s.get ⟨i, h⟩) ::
          ((((s.drop (i + 1)).take (L - 1)).map fun c => (([] : List Char), c)) ++
            annotate mlen tags ins s fuel (i + L))
      | none => (([] : List Char), s.get ⟨i, h⟩) :: annotate mlen tags ins s fuel (i + 1)
    else []

/-! ## Theorems -/

/-! ### Chunking (C2) -/

theorem splitNl_ne_nil (l : List Char) : splitNl l ≠ [] := by
  cases l with
  | nil => simp [splitNl]
  | cons c cs => by_cases hc : c = '\n' <;> simp [splitNl, hc]

theorem mem_splitNl_no_newline (l : List Char) :
    ∀ g ∈ splitNl l, '\n' ∉ g := by
  induction l with
  | nil => intro g hg; simp [splitNl] at hg; simp [hg]
  | cons c cs ih =>
    intro g hg
    rcases h : splitNl cs with _ | ⟨g0, gs⟩
    · exact absurd h (splitNl_ne_nil cs)
    · by_cases hc : c = '\n'
      · simp [splitNl, hc, h] at hg
        rcases hg with rfl | hg
        · simp
        · exact ih g (by rw [h]; exact List.mem_cons.mpr hg)
      · simp [splitNl, hc, h] at hg
        rcases hg with rfl | hg
        · intro hmem
          rcases List.mem_cons.mp hmem with hh | hh
          · exact hc hh.symm
          · exact ih g0 (by rw [h]; exact List.mem_cons_self g0 gs) hh
        · exact ih g (by rw [h]; exact List.mem_cons_of_mem g0 hg)

theorem splitNl_of_no_newline (l : List Char) (h : '\n' ∉ l) :
    splitNl l = [l] := by
  induction l with
  | nil => simp [splitNl]
  | cons c cs ih =>
    have hc : ¬ c = '\n' := fun hc => h (hc ▸ List.mem_cons_self c cs)
    have hcs := ih fun hm => h (List.mem_cons_of_mem c hm)
    simp [splitNl, hc, hcs]

theorem chunkText_newlineFree (raw : String) :
    ∀ c ∈ chunkText raw, newlineFree c = true := by
  intro c hc
  simp only [chunkText, List.mem_map] at hc
  obtain ⟨l, hl, rfl⟩ := hc
  have := mem_splitNl_no_newline raw.data l hl
  simp [newlineFree, this]

theorem chunkText_of_newlineFree (c : String) (h : newlineFree c = true) :
    chunkText c = [c] := by
  have hc : '\n' ∉ c.data := by simp [newlineFree] at h; exact h
  simp [chunkText, splitNl_of_no_newline c.data hc]

theorem rechunk_noop (cs : List String) (h : ∀ c ∈ cs, newlineFree c = true) :
    cs.flatMap chunkText = cs := by
  induction cs with
  | nil => simp
  | cons c cs ih =>
    rw [List.flatMap_cons, chunkText_of_newlineFree c (h c (List.mem_cons_self _ _)),
      ih fun x hx => h x (List.mem_cons_of_mem _ hx)]
    rfl

theorem emitChunks_events (tok : CancelToken) (k : Nat) (cs : List String) :
    ∀ e ∈ (emitChunks tok k cs).1, ∃ c, c ∈ cs ∧ e = OutputEvent.contentChunk c := by
  induction cs generalizing k with
  | nil => intro e he; simp [emitChunks] at he
  | cons c cs ih =>
    intro e he
    simp only [emitChunks] at he
    by_cases hk : isCancelled tok k
    · simp [hk] at he
    · simp [hk] at he
      rcases he with he | he
      · exact ⟨c, List.mem_cons_self _ _, he⟩
      · obtain ⟨c', hc', rfl⟩ := ih (k + 1) e he
        exact ⟨c', List.mem_cons_of_mem _ hc', rfl⟩

theorem runSections_chunks (tok : CancelToken) (k : Nat)
    (secs : List (Except String String)) :
    ∀ e ∈ runSections tok k secs, ∀ t, e = OutputEvent.contentChunk t →
      newlineFree t = true := by
  induction secs generalizing k with
  | nil => intro e he t ht; simp [runSections] at he; simp [he] at ht
  | cons sec rest ih =>
    intro e he t ht
    simp only [runSections] at he
    by_cases hk : isCancelled tok k
    · simp [hk] at he; simp [he] at ht
    · simp only [hk, Bool.false_eq_true, if_false] at he
      cases sec with
      | error r => simp at he; simp [he] at ht
      | ok raw =>
        simp only at he
        by_cases hmid : (emitChunks tok (k + 1) (chunkText raw)).2.2
        · simp [hmid] at he
          rcases he with he | he
          · obtain ⟨c, hc, rfl⟩ := emitChunks_events tok (k + 1) (chunkText raw) e he
            cases ht
            exact chunkText_newlineFree raw _ hc
          · simp [he] at ht
        · simp [hmid] at he
          rcases he with he | he | he
          · obtain ⟨c, hc, rfl⟩ := emitChunks_events tok (k + 1) (chunkText raw) e he
            cases ht
            exact chunkText_newlineFree raw _ hc
          · simp [he] at ht
          · exact ih _ e he t ht

/-- C2.  Every `ContentChunk` the orchestrator emits has a newline-free
payload — raw model output with embedded line breaks is re-split by the
chunker before emission — and re-chunking a sequence of already-chunked
(newline-free) payloads is a no-op. -/
theorem content_chunks_newline_free (jobId : String) (tok : CancelToken)
    (plan : Except String PlanResult) (secOutcome : Nat → Except String String)
    (cs : List String) (hcs : ∀ c ∈ cs, newlineFree c = true) :
    (∀ e ∈ orchestrate jobId tok plan secOutcome, ∀ t, e = OutputEvent.contentChunk t →
      newlineFree t = true) ∧
    cs.flatMap chunkText = cs := by
  refine ⟨?_, rechunk_noop cs hcs⟩
  intro e he t ht
  simp only [orchestrate] at he
  rcases List.mem_cons.mp he with rfl | he
  · simp at ht
  · by_cases hc : (isCancelled tok 0 || isCancelled tok 1) = true
    · simp [hc] at he; simp [he] at ht
    · simp only [hc, if_false, Bool.false_eq_true] at he
      cases plan with
      | error r => simp at he; simp [he] at ht
      | ok p =>
        simp only at he
        by_cases hp : p.headings.isEmpty
        · simp [hp] at he; simp [he] at ht
        · simp [hp] at he
          exact runSections_chunks tok 2 _ e he t ht

/-- C2 witness: a concrete emitted chunk is newline-free, and re-chunking a
concrete chunked sequence is the identity. -/
theorem content_chunks_newline_free_witness :
    newlineFree "line1" = true ∧ ["line1", "line2"].flatMap chunkText = ["line1", "line2"] := by
  have h := content_chunks_newline_free "J" ⟨none⟩ (.ok ⟨"T", ["s"]⟩)
    (fun _ => .ok "line1\nline2") ["line1", "line2"] (by decide)
  exact ⟨h.1 (OutputEvent.contentChunk "line1") (by decide) "line1" rfl, h.2⟩

/-! ### Stream shape (C1) and cancellation before the plan (C7) -/

theorem emitChunks_counts (tok : CancelToken) (k : Nat) (cs : List String) :
    (emitChunks tok k cs).1.countP isStartEv = 0 ∧
    (emitChunks tok k cs).1.countP isTerminalEv = 0 := by
  induction cs generalizing k with
  | nil => simp [emitChunks]
  | cons c cs ih =>
    simp only [emitChunks]
    by_cases hk : isCancelled tok k
    · simp [hk]
    · simp only [hk, Bool.false_eq_true, if_false]
      have := ih (k + 1)
      simp [List.countP_cons, isStartEv, isTerminalEv, this.1, this.2]

theorem runSections_decomp (tok : CancelToken) (k : Nat)
    (secs : List (Except String String)) :
    ∃ front t, runSections tok k secs = front ++ [t] ∧ isTerminalEv t = true ∧
      front.countP isStartEv = 0 ∧ front.countP isTerminalEv = 0 := by
  induction secs generalizing k with
  | nil => exact ⟨[], OutputEvent.completed, by simp [runSections], rfl, rfl, rfl⟩
  | cons sec rest ih =>
    simp only [runSections]
    by_cases hk : isCancelled tok k
    · exact ⟨[], OutputEvent.cancelled, by simp [hk], rfl, rfl, rfl⟩
    · simp only [hk, Bool.false_eq_true, if_false]
      cases sec with
      | error r => exact ⟨[], OutputEvent.failed r, by simp, rfl, rfl, rfl⟩
      | ok raw =>
        simp only
        by_cases hmid : (emitChunks tok (k + 1) (chunkText raw)).2.2
        · refine ⟨(emitChunks tok (k + 1) (chunkText raw)).1, OutputEvent.cancelled,
            by simp [hmid], rfl, ?_, ?_⟩
          · exact (emitChunks_counts tok (k + 1) (chunkText raw)).1
          · exact (emitChunks_counts tok (k + 1) (chunkText raw)).2
        · obtain ⟨front, t, heq, hterm, hs, ht⟩ :=
            ih (emitChunks tok (k + 1) (chunkText raw)).2.1
          refine ⟨(emitChunks tok (k + 1) (chunkText raw)).1 ++
              OutputEvent.sectionBoundary :: front, t, ?_, hterm, ?_, ?_⟩
          · simp [hmid, heq]
          · simp [List.countP_append, List.countP_cons,
              (emitChunks_counts tok (k + 1) (chunkText raw)).1, hs, isStartEv]
          · simp [List.countP_append, List.countP_cons,
              (emitChunks_counts tok (k + 1) (chunkText raw)).2, ht, isTerminalEv]

theorem orchestrate_tail_decomp (jobId : String) (tok : CancelToken)
    (plan : Except String PlanResult) (secOutcome : Nat → Except String String) :
    ∃ front t, orchestrate jobId tok plan secOutcome =
        OutputEvent.jobStarted jobId :: (front ++ [t]) ∧ isTerminalEv t = true ∧
      front.countP isStartEv = 0 ∧ front.countP isTerminalEv = 0 := by
  simp only [orchestrate]
  by_cases hc : (isCancelled tok 0 || isCancelled tok 1) = true
  · exact ⟨[], OutputEvent.cancelled, by simp [hc], rfl, rfl, rfl⟩
  · simp only [hc, Bool.false_eq_true, if_false]
    cases plan with
    | error r => exact ⟨[], OutputEvent.failed r, by simp, rfl, rfl, rfl⟩
    | ok p =>
      simp only
      by_cases hp : p.headings.isEmpty
      · exact ⟨[], OutputEvent.failed "malformed plan", by simp [hp], rfl, rfl, rfl⟩
      · obtain ⟨front, t, heq, hterm, hs, ht⟩ :=
          runSections_decomp tok 2 ((List.range p.headings.length).map secOutcome)
        exact ⟨front, t, by simp [hp, heq], hterm, hs, ht⟩

/-- C1.  Every orchestrated stream begins with exactly one `JobStarted` and
ends with exactly one terminal event (`Completed`, `Cancelled` or `Failed`) —
never zero terminal events, never two. -/
theorem orchestrate_stream_wellformed (jobId : String) (tok : CancelToken)
    (plan : Except String PlanResult) (secOutcome : Nat → Except String String) :
    (orchestrate jobId tok plan secOutcome).head? =
        some (OutputEvent.jobStarted jobId) ∧
    (orchestrate jobId tok plan secOutcome).countP isStartEv = 1 ∧
    (orchestrate jobId tok plan secOutcome).countP isTerminalEv = 1 ∧
    ∃ t, (orchestrate jobId tok plan secOutcome).getLast? = some t ∧
      isTerminalEv t = true := by
  obtain ⟨front, t, heq, hterm, hs, ht⟩ :=
    orchestrate_tail_decomp jobId tok plan secOutcome
  rw [heq]
  refine ⟨rfl, ?_, ?_, t, ?_, hterm⟩
  · have hns : isStartEv t = false := by
      cases t <;> first | rfl | simp [isTerminalEv] at hterm
    simp [List.countP_cons, List.countP_append, hs, hns,
      show isStartEv (OutputEvent.jobStarted jobId) = true from rfl]
  · simp [List.countP_cons, List.countP_append, ht, hterm,
      show isTerminalEv (OutputEvent.jobStarted jobId) = false from rfl]
  · rw [show OutputEvent.jobStarted jobId :: (front ++ [t]) =
        (OutputEvent.jobStarted jobId :: front) ++ [t] by simp]
    exact List.getLast?_concat _

/-- C7.  A job whose cancellation token is set before or during the plan
call (checkpoint 0 or 1) yields exactly `JobStarted` then `Cancelled` —
zero content chunks, and `Cancelled` rather than `Failed` even when the
plan call itself would have failed. -/
theorem cancel_before_plan_yields_cancelled (jobId : String) (m : Nat)
    (plan : Except String PlanResult) (secOutcome : Nat → Except String String)
    (hm : m ≤ 1) :
    orchestrate jobId ⟨some m⟩ plan secOutcome =
      [OutputEvent.jobStarted jobId, OutputEvent.cancelled] := by
  have h1 : isCancelled ⟨some m⟩ 1 = true := by
    simp [isCancelled, hm]
  simp [orchestrate, h1]

/-- C7 witness: a token set before checkpoint 0, against a plan that would
have failed, still yields `JobStarted` then `Cancelled`. -/
theorem cancel_before_plan_yields_cancelled_witness :
    orchestrate "job-1" ⟨some 0⟩ (.error "plan broke") (fun _ => .ok "text") =
      [OutputEvent.jobStarted "job-1", OutputEvent.cancelled] :=
  cancel_before_plan_yields_cancelled "job-1" 0 (.error "plan broke")
    (fun _ => .ok "text") (by decide)

/-! ### Identifier payload ordering (C3) -/

theorem dataPayloads_cons_data (p : String) (ws : List WireLine) :
    dataPayloads (WireLine.data p :: ws) = p :: dataPayloads ws := by
  simp [dataPayloads, List.filterMap_cons]

theorem dataPayloads_cons_event (n : String) (ws : List WireLine) :
    dataPayloads (WireLine.event n :: ws) = dataPayloads ws := by
  simp [dataPayloads, List.filterMap_cons]

theorem emitChunks_none (k : Nat) (cs : List String) :
    emitChunks ⟨none⟩ k cs = (cs.map OutputEvent.contentChunk, k + cs.length, false) := by
  induction cs generalizing k with
  | nil => simp [emitChunks]
  | cons c cs ih =>
    simp only [emitChunks, isCancelled]
    rw [ih (k + 1)]
    simp [Nat.add_assoc, Nat.add_comm 1 cs.length]

theorem dataPayloads_append (xs ys : List WireLine) :
    dataPayloads (xs ++ ys) = dataPayloads xs ++ dataPayloads ys := by
  simp [dataPayloads, List.filterMap_append]

theorem dataPayloads_chunks (cs : List String) :
    dataPayloads ((cs.map OutputEvent.contentChunk).map encodeEvent) = cs := by
  induction cs with
  | nil => rfl
  | cons c cs ih => simp [encodeEvent, dataPayloads_cons_data] at ih ⊢; exact ih

/-- C3 counterexample.  On an uncancelled, successful edit stream the
payload carrying the document identifier key (`new_contract_id`) is the
last payload, not the first: the first payload carries only `edit_id`
(which has no `contract_id`/`new_contract_id` key), and a content chunk
precedes the identifier payload. -/
theorem edit_new_id_payload_not_first :
    dataPayloads (editWire "E1" "C2" ⟨none⟩ (.ok "hello")) =
      [idPayload "edit_id" "E1", "hello", idPayload "new_contract_id" "C2"] ∧
    (dataPayloads (editWire "E1" "C2" ⟨none⟩ (.ok "hello"))).filter hasIdKey =
      [idPayload "new_contract_id" "C2"] ∧
    hasIdKey ((dataPayloads (editWire "E1" "C2" ⟨none⟩ (.ok "hello"))).headD "") =
      false := by
  decide

/-- C3 amended.  For generation jobs the `contract_id` payload is the very
first payload of the stream; for edit jobs the `edit_id` payload is first,
and on an uncancelled successful edit the `new_contract_id` payload is the
last payload, delivered after all content chunks as the completion
signal. -/
theorem id_payload_ordering (jobId editId newId text : String) (tok : CancelToken)
    (plan : Except String PlanResult) (secOutcome : Nat → Except String String)
    (outcome : Except String String) :
    (dataPayloads (wireEncode (orchestrate jobId tok plan secOutcome))).head? =
      some (idPayload "contract_id" jobId) ∧
    (dataPayloads (editWire editId newId tok outcome)).head? =
      some (idPayload "edit_id" editId) ∧
    (dataPayloads (editWire editId newId ⟨none⟩ (.ok text))).getLast? =
      some (idPayload "new_contract_id" newId) := by
  refine ⟨?_, ?_, ?_⟩
  · simp only [orchestrate, wireEncode, List.map_cons, encodeEvent]
    rw [dataPayloads_cons_data]
    rfl
  · simp only [editWire]
    rw [dataPayloads_cons_data]
    rfl
  · have hfalse : (isCancelled ⟨none⟩ 0 || isCancelled ⟨none⟩ 1) = false := rfl
    simp only [editWire, hfalse, Bool.false_eq_true, if_false, emitChunks_none]
    rw [dataPayloads_cons_data, dataPayloads_append, dataPayloads_chunks]
    rw [show dataPayloads [WireLine.data (idPayload "new_contract_id" newId),
        WireLine.event "edit_complete"] = [idPayload "new_contract_id" newId] from rfl]
    rw [show idPayload "edit_id" editId ::
        (chunkText text ++ [idPayload "new_contract_id" newId]) =
        (idPayload "edit_id" editId :: chunkText text) ++
          [idPayload "new_contract_id" newId] by simp]
    exact List.getLast?_concat _

/-! ### The cancel endpoint never errors (C4) -/

/-- C4.  The back-end stop endpoint always answers success: for every
registry state and job id — unknown and already-released jobs included —
it returns status 200, reporting an unknown/finished job as the no-op
`false` with the registry unchanged; and the web proxy route (given an
authenticated session and a non-empty id) forwards that success as 200. -/
theorem stop_endpoint_always_succeeds (reg : Registry) (contractId : String)
    (hid : contractId ≠ "") :
    (stopEndpoint reg contractId).2.status = 200 ∧
    (Registry.lookup reg contractId = none →
      (stopEndpoint reg contractId).2.cancelled = false ∧
      (stopEndpoint reg contractId).1 = reg) ∧
    (webStopRoute true contractId reg).2.status = 200 := by
  refine ⟨rfl, ?_, ?_⟩
  · intro hnone
    simp [stopEndpoint, cancelJob, hnone]
  · have hbeq : (contractId == "") = false := by
      simp [hid]
    simp [webStopRoute, hbeq, stopEndpoint]

/-- C4 witness: stopping a job unknown to an empty registry is a 200 no-op. -/
theorem stop_endpoint_always_succeeds_witness :
    (stopEndpoint ⟨[]⟩ "job-x").2.status = 200 ∧
    (stopEndpoint ⟨[]⟩ "job-x").2.cancelled = false ∧
    (webStopRoute true "job-x" ⟨[]⟩).2.status = 200 := by
  have h := stop_endpoint_always_succeeds ⟨[]⟩ "job-x" (by decide)
  exact ⟨h.1, (h.2.1 rfl).1, h.2.2⟩

/-! ### Retries are invisible when they succeed (C6) -/

theorem retryGo_transient_skip {α : Type} (f : Nat → CallResult α) (a : α) :
    ∀ k i budget, k < budget → (∀ j, j < k → (f (i + j)).isTransient = true) →
      f (i + k) = .ok a → retryGo f i budget = (Except.ok a, k + 1) := by
  intro k
  induction k with
  | zero =>
    intro i budget hb ht hf
    cases budget with
    | zero => exact absurd hb (by omega)
    | succ b => simp only [retryGo, show f i = .ok a from by simpa using hf]
  | succ k ih =>
    intro i budget hb ht hf
    cases budget with
    | zero => exact absurd hb (by omega)
    | succ b =>
      have h0 : (f i).isTransient = true := by simpa using ht 0 (by omega)
      cases hfi : f i with
      | ok v => rw [hfi] at h0; simp [CallResult.isTransient] at h0
      | fatal e => rw [hfi] at h0; simp [CallResult.isTransient] at h0
      | transient e =>
        have hb0 : ¬ b = 0 := by omega
        have hrec : retryGo f (i + 1) b = (Except.ok a, k + 1) := by
          refine ih (i + 1) b (by omega) (fun j hj => ?_) ?_
          · have := ht (j + 1) (by omega)
            rwa [show i + (j + 1) = i + 1 + j by omega] at this
          · rw [show i + 1 + k = i + (k + 1) by omega]
            exact hf
        simp only [retryGo, hfi, hb0, if_false, hrec]

/-- C6.  A model call that fails transiently exactly `k < maxAttempts`
times and then succeeds produces the same result as a call that succeeds
on its first attempt — so retried-then-successful calls are invisible in
the orchestrator's final event stream — while a non-transient (fatal)
failure is never retried: it fails after exactly one attempt. -/
theorem retry_transient_invisible {α : Type} (maxAttempts k : Nat)
    (f g : Nat → CallResult α) (a : α)
    (hk : k < maxAttempts)
    (ht : ∀ i, i < k → (f i).isTransient = true)
    (hf : f k = .ok a) (hg : g 0 = .ok a) :
    (retryRun maxAttempts f).1 = (retryRun maxAttempts g).1 ∧
    (retryRun maxAttempts f).1 = Except.ok a ∧
    (retryRun maxAttempts g).2 = 1 ∧
    (∀ (h : Nat → CallResult α) (e : String), h 0 = .fatal e →
      retryRun maxAttempts h = (Except.error e, 1)) ∧
    (∀ (p q : Nat → CallResult PlanResult) (fs gs : Nat → Nat → CallResult String),
      (retryRun maxAttempts p).1 = (retryRun maxAttempts q).1 →
      (∀ j, (retryRun maxAttempts (fs j)).1 = (retryRun maxAttempts (gs j)).1) →
      ∀ jobId tok, orchestrateWithRetry jobId tok maxAttempts p fs =
        orchestrateWithRetry jobId tok maxAttempts q gs) := by
  have hrunf : retryRun maxAttempts f = (Except.ok a, k + 1) :=
    retryGo_transient_skip f a k 0 maxAttempts hk (by simpa using ht) (by simpa using hf)
  have hrung : retryRun maxAttempts g = (Except.ok a, 1) :=
    retryGo_transient_skip g a 0 0 maxAttempts (by omega)
      (fun j hj => absurd hj (by omega)) (by simpa using hg)
  refine ⟨by rw [hrunf, hrung], by rw [hrunf], by rw [hrung], ?_, ?_⟩
  · intro h e he
    cases maxAttempts with
    | zero => exact absurd hk (by omega)
    | succ b => simp [retryRun, retryGo, he]
  · intro p q fs gs hpq hsec jobId tok
    unfold orchestrateWithRetry
    rw [hpq, show (fun i => (retryRun maxAttempts (fs i)).1) =
      (fun i => (retryRun maxAttempts (gs i)).1) from funext hsec]

/-- C6 witness: two transient failures inside a three-attempt budget give
the same result as first-try success, and a fatal first attempt stops
after one attempt. -/
theorem retry_transient_invisible_witness :
    (retryRun 3 fun i => if i < 2 then CallResult.transient "t" else CallResult.ok "A").1 =
      (retryRun 3 fun _ => CallResult.ok "A").1 ∧
    retryRun 3 (fun _ => (CallResult.fatal "bad" : CallResult String)) =
      (Except.error "bad", 1) := by
  have h := retry_transient_invisible 3 2
    (fun i => if i < 2 then CallResult.transient "t" else CallResult.ok "A")
    (fun _ => CallResult.ok "A") "A" (by decide) (by decide) (by decide) rfl
  exact ⟨h.1, h.2.2.2.1 _ "bad" rfl⟩

/-! ### Failure markers and partial output (C5) -/

/-- C5.  Evaluating the two stream readers on a failing stream (one chunk,
then `event: error`): the edit reader keeps the received content and sets
the failure marker, but the generation hook ignores the error event — it
keeps the content, sets no error, and marks the result complete at stream
end, contradicting the spec's caller-observes-a-failure-marker guarantee. -/
theorem generation_hook_drops_failure_marker :
    runGenerate ["data: X\n", "event: error\n"] =
      { contractId := none, content := "X\n", isComplete := true, error := none } ∧
    runEdit ["data: X\n", "event: error\n"] =
      { editedContent := "X", error := some "Edit failed", completedWith := none } := by
  decide

/-! ### Stream end marks completion (C10) -/

theorem finishStream_content (st : GenState) :
    (finishStream st).content = st.content := by
  unfold finishStream; split <;> rfl

theorem finishStream_error (st : GenState) :
    (finishStream st).error = st.error := by
  unfold finishStream; split <;> rfl

theorem finishStream_complete (st : GenState) (h : st.content ≠ "") :
    (finishStream st).isComplete = true := by
  unfold finishStream
  by_cases hc : st.isComplete
  · simp [hc]
  · simp [hc, h]

theorem genData_error (st : GenState) (d : String) :
    (genData st d).error = st.error := by
  unfold genData
  split
  · split <;> rfl
  · rfl

theorem genLine_error (st : GenState) (l : String) :
    (genLine st l).1.error = st.error ∨
      (genLine st l).1.error = some "Contract generation was cancelled" := by
  unfold genLine
  split_ifs <;> simp [genData_error]

theorem genLines_error (st : GenState) (ls : List String) :
    (genLines st ls).error = st.error ∨
      (genLines st ls).error = some "Contract generation was cancelled" := by
  induction ls generalizing st with
  | nil => exact Or.inl rfl
  | cons l ls ih =>
    have he := genLine_error st l
    simp only [genLines]
    rcases hgl : genLine st l with ⟨st', brk⟩
    rw [hgl] at he
    cases brk with
    | true => exact he
    | false =>
      rcases ih st' with h | h
      · rw [h]; exact he
      · exact Or.inr h

theorem genFold_error (chunks : List String) (acc : GenState × String)
    (hacc : acc.1.error = none ∨
      acc.1.error = some "Contract generation was cancelled") :
    (chunks.foldl genStep acc).1.error = none ∨
      (chunks.foldl genStep acc).1.error =
        some "Contract generation was cancelled" := by
  induction chunks generalizing acc with
  | nil => exact hacc
  | cons c cs ih =>
    refine ih (genStep acc c) ?_
    have hl := genLines_error acc.1 (sseSplit acc.2 c).1
    rcases hl with h | h
    · rw [show (genStep acc c).1 = genLines acc.1 (sseSplit acc.2 c).1 from rfl, h]
      exact hacc
    · exact Or.inr (by rw [show (genStep acc c).1 =
        genLines acc.1 (sseSplit acc.2 c).1 from rfl, h])

theorem runGenerate_error (chunks : List String) :
    (runGenerate chunks).error = none ∨
      (runGenerate chunks).error = some "Contract generation was cancelled" := by
  unfold runGenerate
  rw [finishStream_error]
  exact genFold_error chunks (initGenState, "") (Or.inl rfl)

/-- C10.  Whenever the generation stream ends with accumulated content the
hook marks the contract complete, `done` event or not; and any error the
hook ever reports is the cancellation message, so a cancelled generation
with content ends with both the error message set and `isComplete = true`. -/
theorem stream_end_marks_complete (chunks : List String) :
    ((runGenerate chunks).content ≠ "" → (runGenerate chunks).isComplete = true) ∧
    (∀ m, (runGenerate chunks).error = some m →
      m = "Contract generation was cancelled" ∧
      ((runGenerate chunks).content ≠ "" →
        (runGenerate chunks).isComplete = true)) := by
  have hcomplete : (runGenerate chunks).content ≠ "" →
      (runGenerate chunks).isComplete = true := by
    intro h
    unfold runGenerate at h ⊢
    refine finishStream_complete _ ?_
    rwa [finishStream_content] at h
  refine ⟨hcomplete, fun m hm => ⟨?_, hcomplete⟩⟩
  rcases runGenerate_error chunks with h | h
  · rw [h] at hm; cases hm
  · rw [h] at hm; injection hm with hm; exact hm.symm

/-- C10 witness: a cancelled stream with partial content ends complete and
with the cancellation message set. -/
theorem stream_end_marks_complete_witness :
    (runGenerate ["data: Hi\n\nevent: cancelled\n"]).isComplete = true ∧
    (runGenerate ["data: Hi\n\nevent: cancelled\n"]).error =
      some "Contract generation was cancelled" :=
  ⟨(stream_end_marks_complete _).1 (by decide), by decide⟩

/-! ### The two clause-break formatters (C8) -/

/-- C8 counterexample.  The exported hook formatter and the component's
local formatter disagree already on `"a 1.1 b"`: the hook inserts
`<br/><br/>`, the component a single `<br/>`. -/
theorem format_clause_breaks_formatters_differ :
    formatClauseBreaks "a 1.1 b" = "a <br/><br/>1.1 b" ∧
    formatClauseBreaksComponent "a 1.1 b" = "a <br/>1.1 b" ∧
    formatClauseBreaks "a 1.1 b" ≠ formatClauseBreaksComponent "a 1.1 b" := by
  decide

theorem scanFrom_no_match (mlen : List Char → Option Nat)
    (repl : List Char → Nat → Nat → List Char) (s : List Char)
    (h : ∀ i, i < s.length → mlen (s.drop i) = none) :
    ∀ fuel i, s.length ≤ fuel + i → scanFrom mlen repl s fuel i = s.drop i := by
  intro fuel
  induction fuel with
  | zero =>
    intro i hle
    simp only [scanFrom]
    rw [eq_comm, List.drop_eq_nil_iff]
    omega
  | succ fuel ih =>
    intro i hle
    by_cases hi : i < s.length
    · simp only [scanFrom, hi, if_true, h i hi]
      rw [ih (i + 1) (by omega), List.drop_eq_getElem_cons hi]
      simp
    · simp only [scanFrom, hi, if_false]
      rw [eq_comm, List.drop_eq_nil_iff]
      omega

theorem jsReplace_no_match (mlen : List Char → Option Nat)
    (repl : List Char → Nat → Nat → List Char) (s : List Char)
    (h : ∀ i, i < s.length → mlen (s.drop i) = none) :
    jsReplace mlen repl s = s := by
  unfold jsReplace
  rw [scanFrom_no_match mlen repl s h s.length 0 (by omega)]
  rfl

theorem anyMatch_false (mlen : List Char → Option Nat) (s : List Char)
    (h : anyMatch mlen s = false) :
    ∀ i, i < s.length → mlen (s.drop i) = none := by
  intro i hi
  simp only [anyMatch, List.any_eq_false] at h
  have hns := h i (List.mem_range.mpr hi)
  cases hmm : mlen (s.drop i) with
  | none => rfl
  | some L => rw [hmm] at hns; simp at hns

/-- C8 amended.  The two formatters are not equivalent (the hook inserts a
double `<br/><br/>` before numbered sub-clauses and additionally breaks
lettered sub-clauses; the component inserts a single `<br/>` before
numbered sub-clauses only), but they agree — both returning the input
unchanged — on every input in which neither sub-clause pattern matches. -/
theorem formatters_agree_without_matches (html : String)
    (hnum : anyMatch numMatchLen html.data = false)
    (hlet : anyMatch letMatchLen html.data = false) :
    formatClauseBreaks html = html ∧ formatClauseBreaksComponent html = html := by
  have h1 : jsReplace numMatchLen replNumHook html.data = html.data :=
    jsReplace_no_match _ _ _ (anyMatch_false _ _ hnum)
  have h2 : jsReplace numMatchLen replNumComponent html.data = html.data :=
    jsReplace_no_match _ _ _ (anyMatch_false _ _ hnum)
  constructor
  · apply String.ext
    show jsReplace letMatchLen replLetHook
      (jsReplace numMatchLen replNumHook html.data) = html.data
    rw [h1]
    exact jsReplace_no_match _ _ _ (anyMatch_false _ _ hlet)
  · apply String.ext
    show jsReplace numMatchLen replNumComponent html.data = html.data
    exact h2

/-- C8 amended witness: on pattern-free input both formatters are the
identity, hence agree. -/
theorem formatters_agree_without_matches_witness :
    formatClauseBreaks "hello world" = "hello world" ∧
    formatClauseBreaksComponent "hello world" = "hello world" :=
  formatters_agree_without_matches "hello world" (by decide) (by decide)

/-! ### Idempotence of the hook formatter (C9): character classes -/

theorem space_cases (c : Char) (h : isJsSpace c = true) :
    c = ' ' ∨ c = '\t' ∨ c = '\n' ∨ c = '\r' ∨ c = Char.ofNat 11 ∨
      c = Char.ofNat 12 ∨ c = Char.ofNat 160 ∨ c = Char.ofNat 65279 := by
  simpa [isJsSpace, or_assoc] using h

theorem block_cases (c : Char) (h : inBlockAlpha c = true) :
    c = '<' ∨ c = 'b' ∨ c = 'r' ∨ c = '/' ∨ c = '>' := by
  simpa [inBlockAlpha, or_assoc] using h

theorem space_not_letter (c : Char) (h : isJsSpace c = true) :
    isAsciiLetter c = false := by
  rcases space_cases c h with rfl | rfl | rfl | rfl | rfl | rfl | rfl | rfl <;> decide

theorem space_not_digit (c : Char) (h : isJsSpace c = true) :
    c.isDigit = false := by
  rcases space_cases c h with rfl | rfl | rfl | rfl | rfl | rfl | rfl | rfl <;> decide

theorem space_not_numBody (c : Char) (h : isJsSpace c = true) :
    isNumBodyChar c = false := by
  rcases space_cases c h with rfl | rfl | rfl | rfl | rfl | rfl | rfl | rfl <;> decide

theorem space_not_letBody (c : Char) (h : isJsSpace c = true) :
    isLetBodyChar c = false := by
  rcases space_cases c h with rfl | rfl | rfl | rfl | rfl | rfl | rfl | rfl <;> decide

theorem letter_not_digit (c : Char) (h : isAsciiLetter c = true) :
    c.isDigit = false := by
  simp only [isAsciiLetter, Bool.or_eq_true, Bool.and_eq_true, decide_eq_true_eq] at h
  by_contra hd
  simp only [Bool.not_eq_false, Char.isDigit, Bool.and_eq_true, decide_eq_true_eq] at hd
  obtain ⟨_, hd2⟩ := hd
  rw [UInt32.le_def] at hd2
  have hd2n : c.val.toNat ≤ 57 := hd2
  rcases h with ⟨h1, _⟩ | ⟨h1, _⟩
  · rw [Char.le_def, UInt32.le_def] at h1
    have h1n : 97 ≤ c.val.toNat := h1
    omega
  · rw [Char.le_def, UInt32.le_def] at h1
    have h1n : 65 ≤ c.val.toNat := h1
    omega

theorem block_not_digit (c : Char) (h : inBlockAlpha c = true) :
    c.isDigit = false := by
  rcases block_cases c h with rfl | rfl | rfl | rfl | rfl <;> decide

theorem block_not_paren (c : Char) (h : inBlockAlpha c = true) :
    c ≠ '(' := by
  rcases block_cases c h with rfl | rfl | rfl | rfl | rfl <;> decide

theorem digit_not_space (c : Char) (h : c.isDigit = true) :
    isJsSpace c = false := by
  by_contra hs
  simp only [Bool.not_eq_false] at hs
  rw [space_not_digit c hs] at h
  cases h

theorem digit_not_letter (c : Char) (h : c.isDigit = true) :
    isAsciiLetter c = false := by
  by_contra hl
  simp only [Bool.not_eq_false] at hl
  rw [letter_not_digit c hl] at h
  cases h

theorem numBody_not_lt (c : Char) (h : isNumBodyChar c = true) : c ≠ '<' := by
  rintro rfl
  simp [isNumBodyChar] at h

theorem letBody_not_lt (c : Char) (h : isLetBodyChar c = true) : c ≠ '<' := by
  rintro rfl
  simp [isLetBodyChar, isAsciiLetter] at h

theorem space_not_lt (c : Char) (h : isJsSpace c = true) : c ≠ '<' := by
  rcases space_cases c h with rfl | rfl | rfl | rfl | rfl | rfl | rfl | rfl <;> decide

theorem letter_not_lt (c : Char) (h : isAsciiLetter c = true) : c ≠ '<' := by
  rintro rfl
  simp [isAsciiLetter] at h

/-! ### Lookahead shape lemmas -/

theorem afterSpaces_sound (cs : List Char)
    (h : lookaheadSpLetter.afterSpacesLetter cs = true) :
    ∃ sps c tail, cs = sps ++ c :: tail ∧ (∀ x ∈ sps, isJsSpace x = true) ∧
      isAsciiLetter c = true := by
  induction cs with
  | nil => simp [lookaheadSpLetter.afterSpacesLetter] at h
  | cons c cs ih =>
    by_cases hc : isJsSpace c = true
    · simp only [lookaheadSpLetter.afterSpacesLetter, hc, if_true] at h
      obtain ⟨sps, c', tail, heq, hsp, hlet⟩ := ih h
      exact ⟨c :: sps, c', tail, by simp [heq], by
        intro x hx
        rcases List.mem_cons.mp hx with rfl | hx
        · exact hc
        · exact hsp x hx, hlet⟩
    · rw [lookaheadSpLetter.afterSpacesLetter, if_neg hc] at h
      exact ⟨[], c, cs, rfl, by simp, h⟩

theorem afterSpaces_complete (sps : List Char) (c : Char) (tail : List Char)
    (hsp : ∀ x ∈ sps, isJsSpace x = true) (hlet : isAsciiLetter c = true) :
    lookaheadSpLetter.afterSpacesLetter (sps ++ c :: tail) = true := by
  induction sps with
  | nil =>
    have : isJsSpace c = false := by
      by_contra hs
      simp only [Bool.not_eq_false] at hs
      rw [space_not_letter c hs] at hlet
      cases hlet
    simp [lookaheadSpLetter.afterSpacesLetter, this, hlet]
  | cons s sps ih =>
    have hs := hsp s (List.mem_cons_self _ _)
    simp only [List.cons_append, lookaheadSpLetter.afterSpacesLetter, hs, if_true]
    exact ih fun x hx => hsp x (List.mem_cons_of_mem _ hx)

theorem look_sound (rs : List Char) (h : lookaheadSpLetter rs = true) :
    ∃ n, LookShape rs n := by
  cases rs with
  | nil => simp [lookaheadSpLetter] at h
  | cons c cs =>
    simp only [lookaheadSpLetter, Bool.and_eq_true] at h
    obtain ⟨sps, c', tail, heq, hsp, hlet⟩ := afterSpaces_sound cs h.2
    refine ⟨(c :: sps).length, c :: sps, c', tail, by simp [heq], rfl, by simp, ?_, hlet⟩
    intro x hx
    rcases List.mem_cons.mp hx with rfl | hx
    · exact h.1
    · exact hsp x hx

theorem look_complete (rs : List Char) (n : Nat) (h : LookShape rs n) :
    lookaheadSpLetter rs = true := by
  obtain ⟨sps, c, tail, heq, hlen, hn, hsp, hlet⟩ := h
  subst heq
  cases sps with
  | nil => simp at hlen; omega
  | cons s sps =>
    have hs := hsp s (List.mem_cons_self _ _)
    simp only [List.cons_append, lookaheadSpLetter, hs, Bool.true_and]
    exact afterSpaces_complete sps c tail (fun x hx => hsp x (List.mem_cons_of_mem _ hx)) hlet

/-! ### Matcher shape lemmas -/

theorem drop_takeWhile_len (p : Char → Bool) (l : List Char) :
    l.drop (l.takeWhile p).length = l.dropWhile p := by
  induction l with
  | nil => rfl
  | cons c cs ih =>
    by_cases hc : p c
    · simp [List.takeWhile_cons, List.dropWhile_cons, hc, ih]
    · simp [List.takeWhile_cons, List.dropWhile_cons, hc]

theorem takeWhile_eats (p : Char → Bool) (xs : List Char) (y : Char) (ys : List Char)
    (hxs : ∀ c ∈ xs, p c = true) (hy : p y = false) :
    (xs ++ y :: ys).takeWhile p = xs := by
  induction xs with
  | nil => simp [List.takeWhile_cons, hy]
  | cons x xs ih =>
    have hx := hxs x (List.mem_cons_self _ _)
    simp only [List.cons_append, List.takeWhile_cons, hx, if_true]
    rw [ih fun c hc => hxs c (List.mem_cons_of_mem _ hc)]

theorem takeWhile_all (p : Char → Bool) (l : List Char) :
    ∀ c ∈ l.takeWhile p, p c = true :=
  fun _ hc => List.mem_takeWhile_imp hc

theorem num_sound (r : List Char) (L : Nat) (h : numMatchLen r = some L) :
    NumShape r L := by
  unfold numMatchLen at h
  by_cases h1 : (r.takeWhile Char.isDigit).isEmpty
  · rw [if_pos h1] at h; cases h
  rw [if_neg h1] at h
  have hr1 : r = r.takeWhile Char.isDigit ++ r.drop (r.takeWhile Char.isDigit).length := by
    rw [drop_takeWhile_len, List.takeWhile_append_dropWhile]
  split at h
  next r2 heq =>
    by_cases h2 : (r2.takeWhile Char.isDigit).isEmpty
    · rw [if_pos h2] at h; cases h
    rw [if_neg h2] at h
    have hr2 : r2 = r2.takeWhile Char.isDigit ++ r2.drop (r2.takeWhile Char.isDigit).length := by
      rw [drop_takeWhile_len, List.takeWhile_append_dropWhile]
    split at h
    next r4 heq2 =>
      by_cases h3 : (r4.takeWhile Char.isDigit).isEmpty
      · rw [if_pos h3] at h
        rw [show lookaheadSpLetter ('.' :: r4) = false from rfl] at h
        cases h
      · rw [if_neg h3] at h
        split at h
        next hlook =>
          injection h with h
          have hr4 : r4 = r4.takeWhile Char.isDigit ++ r4.drop (r4.takeWhile Char.isDigit).length := by
            rw [drop_takeWhile_len, List.takeWhile_append_dropWhile]
          refine ⟨r.takeWhile Char.isDigit, r2.takeWhile Char.isDigit,
            '.' :: r4.takeWhile Char.isDigit,
            r4.drop (r4.takeWhile Char.isDigit).length,
            ?_, ?_, takeWhile_all _ _, ?_, takeWhile_all _ _, ?_, ?_, hlook⟩
          · conv_lhs => rw [hr1, heq]
            conv_lhs => rw [hr2, heq2]
            conv_lhs => rw [hr4]
            simp
          · exact fun hnil => h1 (by simp [hnil])
          · exact fun hnil => h2 (by simp [hnil])
          · exact Or.inr ⟨r4.takeWhile Char.isDigit, rfl,
              fun hnil => h3 (by simp [hnil]),
              takeWhile_all _ _⟩
          · rw [← h]; simp; omega
        next => cases h
    next r3 heq2 =>
      split at h
      next hlook =>
        injection h with h
        refine ⟨r.takeWhile Char.isDigit, r2.takeWhile Char.isDigit, [],
          r2.drop (r2.takeWhile Char.isDigit).length,
          ?_, ?_, takeWhile_all _ _, ?_, takeWhile_all _ _, Or.inl rfl, ?_, hlook⟩
        · conv_lhs => rw [hr1, heq]
          conv_lhs => rw [hr2]
          simp
        · exact fun hnil => h1 (by simp [hnil])
        · exact fun hnil => h2 (by simp [hnil])
        · rw [← h]; simp
      next => cases h
  next => cases h

theorem num_complete (r : List Char) (L : Nat) (h : NumShape r L) :
    numMatchLen r = some L := by
  obtain ⟨d1, d2, opt, rest, heq, hd1ne, hd1, hd2ne, hd2, hopt, hL, hlook⟩ := h
  obtain ⟨n, sps, lc, ltail, hrest, hsn, hn1, hsps, hlc⟩ := look_sound rest hlook
  have hrest_head : ∃ sp stail, rest = sp :: stail ∧ isJsSpace sp = true := by
    cases sps with
    | nil => simp at hsn; omega
    | cons sp stail =>
      exact ⟨sp, stail ++ lc :: ltail, by simp [hrest],
        hsps sp (List.mem_cons_self _ _)⟩
  obtain ⟨sp, stail, hrsp, hspsp⟩ := hrest_head
  have hoptrest_head : ∃ z ztail, opt ++ rest = z :: ztail ∧ Char.isDigit z = false := by
    rcases hopt with rfl | ⟨d3, rfl, hd3ne, hd3⟩
    · exact ⟨sp, stail, by simp [hrsp], space_not_digit sp hspsp⟩
    · exact ⟨'.', d3 ++ rest, by simp, by decide⟩
  obtain ⟨z, ztail, hzeq, hzdig⟩ := hoptrest_head
  have ht1 : r.takeWhile Char.isDigit = d1 := by
    rw [heq]; exact takeWhile_eats _ _ _ _ hd1 (by decide)
  have hd1e : d1.isEmpty = false := List.isEmpty_eq_false.mpr hd1ne
  have hdrop1 : r.drop d1.length = '.' :: (d2 ++ (opt ++ rest)) := by
    rw [heq]; exact List.drop_left _ _
  have ht2 : (d2 ++ (opt ++ rest)).takeWhile Char.isDigit = d2 := by
    rw [hzeq]; exact takeWhile_eats _ _ _ _ hd2 hzdig
  have hd2e : d2.isEmpty = false := List.isEmpty_eq_false.mpr hd2ne
  have hdrop2 : (d2 ++ (opt ++ rest)).drop d2.length = opt ++ rest :=
    List.drop_left _ _
  unfold numMatchLen
  simp only [ht1, hd1e, Bool.false_eq_true, if_false, hdrop1, ht2, hd2e, hdrop2]
  rcases hopt with rfl | ⟨d3, rfl, hd3ne, hd3⟩
  · rw [show ([] : List Char) ++ rest = rest from rfl]
    have hnotdot : sp ≠ '.' := by
      rintro rfl
      have := hspsp
      simp [isJsSpace] at this
    rw [hrsp]
    split
    next r4 habs =>
      exfalso
      apply hnotdot
      injection habs
    next =>
      rw [← hrsp, hlook, if_pos rfl]
      simp [hL]
  · have ht3 : (d3 ++ rest).takeWhile Char.isDigit = d3 := by
      rw [hrsp]; exact takeWhile_eats _ _ _ _ hd3 (space_not_digit sp hspsp)
    have hd3e : d3.isEmpty = false := List.isEmpty_eq_false.mpr hd3ne
    rw [show ('.' :: d3) ++ rest = '.' :: (d3 ++ rest) from rfl]
    simp only [ht3, hd3e, Bool.false_eq_true, if_false,
      show (d3 ++ rest).drop d3.length = rest from List.drop_left _ _, hlook, if_pos rfl]
    simp [hL]
    omega

theorem orElse_split {α : Type} (x : Option α) (f : Unit → Option α) (v : α)
    (hx : x.orElse f = some v) : x = some v ∨ (x = none ∧ f () = some v) := by
  cases x with
  | none => exact Or.inr ⟨rfl, hx⟩
  | some w => exact Or.inl hx

theorem letter_of_lower (c : Char) (h : isAsciiLetter (asciiLower c) = true) :
    isAsciiLetter c = true := by
  unfold asciiLower at h
  split_ifs at h with hu
  · simp only [isAsciiLetter, Bool.or_eq_true]
    exact Or.inr hu
  · exact h

theorem letter_ne_rparen (c : Char) (h : isAsciiLetter c = true) : c ≠ ')' := by
  rintro rfl
  simp [isAsciiLetter] at h

theorem letterBody_letters (w : List Char) (h : letterBodyOk w = true) :
    (∀ c ∈ w, isAsciiLetter c = true) ∧
      (w.length = 1 ∨ w.length = 2 ∨ w.length = 3 ∨ w.length = 4) := by
  unfold letterBodyOk at h
  split at h
  next c =>
    constructor
    · intro x hx
      rcases List.mem_cons.mp hx with rfl | hx
      · exact h
      · simp at hx
    · simp
  next hne =>
    have hmem : w.map asciiLower ∈ romanWords := by
      simpa using h
    have hlow : ∀ d ∈ w.map asciiLower, d = 'i' ∨ d = 'v' ∨ d = 'x' := by
      intro d hd
      simp only [romanWords, List.mem_cons, List.mem_singleton,
        List.not_mem_nil, or_false] at hmem
      rcases hmem with h' | h' | h' | h' | h' | h' | h' <;>
        (rw [h'] at hd; simp at hd; tauto)
    refine ⟨?_, ?_⟩
    · intro c hc
      have : asciiLower c ∈ w.map asciiLower := List.mem_map_of_mem _ hc
      rcases hlow _ this with hlc | hlc | hlc <;>
        exact letter_of_lower c (by rw [hlc]; decide)
    · have hlen : (w.map asciiLower).length = w.length := List.length_map _ _
      simp only [romanWords, List.mem_cons, List.mem_singleton,
        List.not_mem_nil, or_false] at hmem
      rcases hmem with h' | h' | h' | h' | h' | h' | h' <;>
        (rw [h'] at hlen; simp at hlen; omega)

theorem letTry_sound (rest : List Char) (k L : Nat) (h : letTry rest k = some L) :
    ∃ w r2, rest = w ++ ')' :: r2 ∧ w.length = k ∧ letterBodyOk w = true ∧
      lookaheadSpLetter r2 = true ∧ L = k + 2 := by
  unfold letTry at h
  by_cases hc : ((rest.take k).length = k && letterBodyOk (rest.take k)) = true
  · rw [if_pos hc] at h
    simp only [Bool.and_eq_true, decide_eq_true_eq] at hc
    split at h
    next r2 hdrop =>
      split at h
      next hlook =>
        injection h with h
        refine ⟨rest.take k, r2, ?_, hc.1, hc.2, hlook, by omega⟩
        conv_lhs => rw [← List.take_append_drop k rest, hdrop]
      next => cases h
    next => cases h
  · rw [if_neg hc] at h; cases h

theorem let_sound (r : List Char) (L : Nat) (h : letMatchLen r = some L) :
    LetShape r L := by
  unfold letMatchLen at h
  split at h
  next rest =>
    have hk : ∃ k, letTry rest k = some L := by
      rcases orElse_split _ _ _ h with h1 | ⟨_, h⟩
      · exact ⟨1, h1⟩
      rcases orElse_split _ _ _ h with h2 | ⟨_, h⟩
      · exact ⟨2, h2⟩
      rcases orElse_split _ _ _ h with h3 | ⟨_, h⟩
      · exact ⟨3, h3⟩
      exact ⟨4, h⟩
    obtain ⟨k, hk⟩ := hk
    obtain ⟨w, r2, hrest, hwlen, hbody, hlook, hLk⟩ := letTry_sound rest k L hk
    exact ⟨w, r2, by rw [hrest], hbody, by omega, hlook⟩
  next => cases h

theorem letTry_hit (w r2 : List Char) (hbody : letterBodyOk w = true)
    (hlook : lookaheadSpLetter r2 = true) :
    letTry (w ++ ')' :: r2) w.length = some (w.length + 2) := by
  unfold letTry
  rw [List.take_left, List.drop_left, if_pos (by simp [hbody])]
  show (if lookaheadSpLetter r2 = true then some (w.length + 2) else none) =
    some (w.length + 2)
  rw [hlook, if_pos rfl]

theorem letTry_none_of_short (w r2 : List Char) (k : Nat) (hk : k < w.length)
    (hletters : ∀ c ∈ w, isAsciiLetter c = true) :
    letTry (w ++ ')' :: r2) k = none := by
  unfold letTry
  have hdrop : (w ++ ')' :: r2).drop k = w.drop k ++ ')' :: r2 :=
    List.drop_append_of_le_length (by omega)
  have hget : w.drop k = w.get ⟨k, hk⟩ :: w.drop (k + 1) := List.drop_eq_getElem_cons hk
  have hch : isAsciiLetter (w.get ⟨k, hk⟩) = true :=
    hletters _ (List.getElem_mem hk)
  set tk : List Char := (w ++ ')' :: r2).take k with htk
  by_cases hc : (decide (tk.length = k) && letterBodyOk tk) = true
  · rw [if_pos hc, hdrop, hget, List.cons_append]
    split
    next r2' habs =>
      exfalso
      have : w.get ⟨k, hk⟩ = ')' := by injection habs
      exact letter_ne_rparen _ hch this
    next => rfl
  · rw [if_neg hc]

theorem let_complete (r : List Char) (L : Nat) (h : LetShape r L) :
    letMatchLen r = some L := by
  obtain ⟨w, rest, heq, hbody, hL, hlook⟩ := h
  obtain ⟨hletters, hlen⟩ := letterBody_letters w hbody
  have hhit := letTry_hit w rest hbody hlook
  have hnone : ∀ k, k < w.length → letTry (w ++ ')' :: rest) k = none :=
    fun k hk => letTry_none_of_short w rest k hk hletters
  subst heq
  show (letTry (w ++ ')' :: rest) 1).orElse _ = some L
  rcases hlen with h1 | h2 | h3 | h4
  · rw [show (1 : Nat) = w.length from h1.symm, hhit]
    rw [hL]; rfl
  · rw [hnone 1 (by omega)]
    show (letTry (w ++ ')' :: rest) 2).orElse _ = some L
    rw [show (2 : Nat) = w.length from h2.symm, hhit]
    rw [hL]; rfl
  · rw [hnone 1 (by omega)]
    show (letTry (w ++ ')' :: rest) 2).orElse _ = some L
    rw [hnone 2 (by omega)]
    show (letTry (w ++ ')' :: rest) 3).orElse _ = some L
    rw [show (3 : Nat) = w.length from h3.symm, hhit]
    rw [hL]; rfl
  · rw [hnone 1 (by omega)]
    show (letTry (w ++ ')' :: rest) 2).orElse _ = some L
    rw [hnone 2 (by omega)]
    show (letTry (w ++ ')' :: rest) 3).orElse _ = some L
    rw [hnone 3 (by omega)]
    show letTry (w ++ ')' :: rest) 4 = some L
    rw [show (4 : Nat) = w.length from h4.symm, hhit]
    rw [hL]

theorem mem_of_getq {l : List Char} {k : Nat} {c : Char} (h : l[k]? = some c) :
    c ∈ l := by
  obtain ⟨hk, rfl⟩ := List.getElem?_eq_some.mp h
  exact List.getElem_mem hk

theorem matchDet_of_shape (mlen : List Char → Option Nat) (bodyChar : Char → Bool)
    (r : List Char) (L : Nat) (B rest : List Char)
    (hr : r = B ++ rest) (hBlen : B.length = L) (hB : ∀ c ∈ B, bodyChar c = true)
    (n : Nat) (hn : LookShape rest n) (hL3 : 3 ≤ L)
    (hdet : ∀ tail', mlen (B ++ (rest.take (n + 1) ++ tail')) = some L) :
    ∃ E, 3 ≤ L ∧ L + 2 ≤ E ∧ E ≤ r.length ∧
      (∀ k c, k < L → r[k]? = some c → bodyChar c = true) ∧
      (∀ k c, L ≤ k → k < E - 1 → r[k]? = some c → isJsSpace c = true) ∧
      (∀ c, r[E - 1]? = some c → isAsciiLetter c = true) ∧
      (∀ r', r.take E = r'.take E → mlen r' = some L) := by
  obtain ⟨sps, lc, ltail, hrest, hsn, hn1, hsps, hlc⟩ := hn
  have hresttake : rest.take (n + 1) = sps ++ [lc] := by
    rw [hrest, show sps ++ lc :: ltail = (sps ++ [lc]) ++ ltail by simp,
      show n + 1 = (sps ++ [lc]).length by simp; omega]
    exact List.take_left _ _
  refine ⟨L + n + 1, hL3, by omega, ?_, ?_, ?_, ?_, ?_⟩
  · rw [hr, List.length_append, hBlen, hrest, List.length_append, hsn]
    simp
    omega
  · intro k c hk hget
    rw [hr, List.getElem?_append_left (by omega)] at hget
    exact hB c (mem_of_getq hget)
  · intro k c hkL hkE hget
    rw [hr, List.getElem?_append_right (by omega)] at hget
    rw [hrest, List.getElem?_append_left (by rw [hsn]; omega)] at hget
    exact hsps c (mem_of_getq hget)
  · intro c hget
    rw [show L + n + 1 - 1 = L + n by omega] at hget
    rw [hr, List.getElem?_append_right (by omega)] at hget
    rw [hrest, List.getElem?_append_right (by omega)] at hget
    rw [show L + n - B.length - sps.length = 0 by omega] at hget
    simp at hget
    rw [← hget]
    exact hlc
  · intro r' htake
    have hrtake : r.take (L + n + 1) = B ++ (sps ++ [lc]) := by
      rw [hr, show L + n + 1 = B.length + (n + 1) by omega]
      rw [List.take_append, hresttake]
    have hr' : r' = (B ++ (sps ++ [lc])) ++ r'.drop (L + n + 1) := by
      conv_lhs => rw [← List.take_append_drop (L + n + 1) r']
      rw [← htake, hrtake]
    have := hdet (r'.drop (L + n + 1))
    rw [hresttake] at this
    rw [hr']
    rw [show (B ++ (sps ++ [lc])) ++ r'.drop (L + n + 1) =
      B ++ ((sps ++ [lc]) ++ r'.drop (L + n + 1)) by simp]
    exact this

theorem numMatchDet : MatchDet numMatchLen isNumBodyChar := by
  intro r L h
  obtain ⟨d1, d2, opt, rest, heq, hd1ne, hd1, hd2ne, hd2, hopt, hL, hlook⟩ := num_sound r L h
  obtain ⟨n, hn⟩ := look_sound rest hlook
  have hL3 : 3 ≤ L := by
    have h1 : 1 ≤ d1.length := List.length_pos.mpr hd1ne
    have h2 : 1 ≤ d2.length := List.length_pos.mpr hd2ne
    omega
  refine matchDet_of_shape numMatchLen isNumBodyChar r L
    (d1 ++ '.' :: (d2 ++ opt)) rest ?_ ?_ ?_ n hn hL3 ?_
  · rw [heq]; simp
  · simp; omega
  · intro c hc
    simp only [List.mem_append, List.mem_cons] at hc
    rcases hc with hc | hc | hc
    · simp [isNumBodyChar, hd1 c hc]
    · simp [isNumBodyChar, hc]
    rcases hc with hc | hc
    · simp [isNumBodyChar, hd2 c hc]
    · rcases hopt with rfl | ⟨d3, rfl, _, hd3⟩
      · simp at hc
      · rcases List.mem_cons.mp hc with rfl | hc
        · simp [isNumBodyChar]
        · simp [isNumBodyChar, hd3 c hc]
  · intro tail'
    obtain ⟨sps, lc, ltail, hrest, hsn, hn1, hsps, hlc⟩ := hn
    have hrt : rest.take (n + 1) = sps ++ [lc] := by
      rw [hrest, show sps ++ lc :: ltail = (sps ++ [lc]) ++ ltail by simp,
        show n + 1 = (sps ++ [lc]).length by simp; omega]
      exact List.take_left _ _
    apply num_complete
    refine ⟨d1, d2, opt, sps ++ lc :: tail', ?_, hd1ne, hd1, hd2ne, hd2, hopt, hL, ?_⟩
    · rw [hrt]; simp
    · exact look_complete _ n ⟨sps, lc, tail', rfl, hsn, hn1, hsps, hlc⟩

theorem letMatchDet : MatchDet letMatchLen isLetBodyChar := by
  intro r L h
  obtain ⟨w, rest, heq, hbody, hL, hlook⟩ := let_sound r L h
  obtain ⟨n, hn⟩ := look_sound rest hlook
  obtain ⟨hletters, hlen⟩ := letterBody_letters w hbody
  refine matchDet_of_shape letMatchLen isLetBodyChar r L
    ('(' :: (w ++ [')'])) rest ?_ ?_ ?_ n hn ?_ ?_
  · rw [heq]; simp
  · simp; omega
  · intro c hc
    rcases List.mem_cons.mp hc with rfl | hc
    · simp [isLetBodyChar]
    rcases List.mem_append.mp hc with hc | hc
    · simp [isLetBodyChar, hletters c hc]
    · simp at hc
      simp [isLetBodyChar, hc]
  · omega
  · intro tail'
    obtain ⟨sps, lc, ltail, hrest, hsn, hn1, hsps, hlc⟩ := hn
    have hrt : rest.take (n + 1) = sps ++ [lc] := by
      rw [hrest, show sps ++ lc :: ltail = (sps ++ [lc]) ++ ltail by simp,
        show n + 1 = (sps ++ [lc]).length by simp; omega]
      exact List.take_left _ _
    apply let_complete
    refine ⟨w, sps ++ lc :: tail', ?_, hbody, hL, ?_⟩
    · rw [hrt]; simp
    · exact look_complete _ n ⟨sps, lc, tail', rfl, hsn, hn1, hsps, hlc⟩

/-! ### Annotation machinery -/

theorem origStr_nil : origStr [] = [] := rfl

theorem origStr_cons (b : List Char) (c : Char) (A : Annot) :
    origStr ((b, c) :: A) = c :: origStr A := rfl

theorem origStr_append (A B : Annot) : origStr (A ++ B) = origStr A ++ origStr B :=
  List.map_append _ _ _

theorem origStr_length (A : Annot) : (origStr A).length = A.length :=
  List.length_map _ _

theorem renderStr_nil : renderStr [] = [] := rfl

theorem renderStr_cons (b : List Char) (c : Char) (A : Annot) :
    renderStr ((b, c) :: A) = b ++ c :: renderStr A := by
  simp [renderStr, List.flatMap_cons]

theorem renderStr_append (A B : Annot) :
    renderStr (A ++ B) = renderStr A ++ renderStr B :=
  List.flatMap_append _ _ _

theorem renderStr_blockless (A : Annot) (h : ∀ k, k < A.length → blkAt A k = []) :
    renderStr A = origStr A := by
  induction A with
  | nil => rfl
  | cons bc A ih =>
    obtain ⟨b, c⟩ := bc
    have hb : b = [] := h 0 (by simp)
    rw [renderStr_cons, origStr_cons, hb,
      ih fun k hk => h (k + 1) (by simp; omega)]
    rfl

theorem renderStr_length_ge (A : Annot) : A.length ≤ (renderStr A).length := by
  induction A with
  | nil => simp [renderStr_nil]
  | cons bc A ih =>
    obtain ⟨b, c⟩ := bc
    rw [renderStr_cons]
    simp only [List.length_append, List.length_cons]
    omega

theorem render_take_eq (A : Annot) (K : Nat) (hbl : ∀ k, k < K → blkAt A k = []) :
    (renderStr A).take K = (origStr A).take K := by
  induction A generalizing K with
  | nil => rfl
  | cons bc A ih =>
    obtain ⟨b, c⟩ := bc
    cases K with
    | zero => simp
    | succ K =>
      have hb : b = [] := hbl 0 (by omega)
      rw [renderStr_cons, origStr_cons, hb]
      simp only [List.nil_append, List.take_succ_cons]
      rw [ih K fun k hk => hbl (k + 1) (by omega)]

theorem render_getLast (A : Annot) (h : A ≠ []) :
    (renderStr A).getLast? = (origStr A).getLast? := by
  induction A with
  | nil => exact absurd rfl h
  | cons bc A ih =>
    obtain ⟨b, c⟩ := bc
    cases A with
    | nil =>
      rw [renderStr_cons, origStr_cons, renderStr_nil, origStr_nil,
        List.getLast?_append_of_ne_nil _ (by simp)]
    | cons bc' A' =>
      have hne : renderStr (bc' :: A') ≠ [] := by
        obtain ⟨b', c'⟩ := bc'
        rw [renderStr_cons]
        simp
      have hone : origStr (bc' :: A') ≠ [] := by
        obtain ⟨b', c'⟩ := bc'
        rw [origStr_cons]
        simp
      rw [renderStr_cons, origStr_cons,
        List.getLast?_append_of_ne_nil _ (by simp),
        show c :: renderStr (bc' :: A') = [c] ++ renderStr (bc' :: A') from rfl,
        List.getLast?_append_of_ne_nil _ hne,
        show c :: origStr (bc' :: A') = [c] ++ origStr (bc' :: A') from rfl,
        List.getLast?_append_of_ne_nil _ hone,
        ih (by simp)]

theorem blkAt_append_left (A B : Annot) (k : Nat) (hk : k < A.length) :
    blkAt (A ++ B) k = blkAt A k := by
  simp only [blkAt, List.get?_eq_getElem?, List.getElem?_append_left hk]

theorem blkAt_cons_succ (bc : List Char × Char) (A : Annot) (k : Nat) :
    blkAt (bc :: A) (k + 1) = blkAt A k := rfl

theorem render_split (A : Annot) (j : Nat) (hj : j < (renderStr A).length) :
    (∃ A₁ b c A₂, A = A₁ ++ (b, c) :: A₂ ∧ j = (renderStr A₁).length + b.length ∧
      (renderStr A)[j]? = some c) ∨
    (∃ A₁ b c A₂ k, A = A₁ ++ (b, c) :: A₂ ∧ k < b.length ∧
      j = (renderStr A₁).length + k ∧ (renderStr A)[j]? = b[k]?) := by
  induction A generalizing j with
  | nil => simp [renderStr_nil] at hj
  | cons bc A ih =>
    obtain ⟨b, c⟩ := bc
    rw [renderStr_cons] at hj ⊢
    by_cases hjb : j < b.length
    · refine Or.inr ⟨[], b, c, A, j, rfl, hjb, by simp [renderStr_nil], ?_⟩
      rw [List.getElem?_append_left hjb]
    · by_cases hje : j = b.length
      · refine Or.inl ⟨[], b, c, A, rfl, by simp [renderStr_nil, hje], ?_⟩
        rw [List.getElem?_append_right (by omega), hje]
        simp
      · have hj' : j - b.length - 1 < (renderStr A).length := by
          simp only [List.length_append, List.length_cons] at hj
          omega
        rcases ih (j - b.length - 1) hj' with
          ⟨A₁, b', c', A₂, heq, hpos, hchar⟩ | ⟨A₁, b', c', A₂, k, heq, hk, hpos, hchar⟩
        · refine Or.inl ⟨(b, c) :: A₁, b', c', A₂, by rw [heq, List.cons_append], ?_, ?_⟩
          · rw [renderStr_cons]
            simp only [List.length_append, List.length_cons]
            omega
          · rw [List.getElem?_append_right (by omega)]
            rw [show j - b.length = (j - b.length - 1) + 1 by omega]
            simpa using hchar
        · refine Or.inr ⟨(b, c) :: A₁, b', c', A₂, k, by rw [heq, List.cons_append], hk, ?_, ?_⟩
          · rw [renderStr_cons]
            simp only [List.length_append, List.length_cons]
            omega
          · rw [List.getElem?_append_right (by omega)]
            rw [show j - b.length = (j - b.length - 1) + 1 by omega]
            simpa using hchar

theorem blkAt_split (A₁ : Annot) (b : List Char) (c : Char) (A₂ : Annot) :
    blkAt (A₁ ++ (b, c) :: A₂) A₁.length = b := by
  simp only [blkAt, List.get?_eq_getElem?,
    List.getElem?_append_right (Nat.le_refl A₁.length), Nat.sub_self]
  simp

theorem blkAt_split_mid (A₁ : Annot) (b : List Char) (c : Char) (A₂ : Annot)
    (k : Nat) :
    blkAt (A₁ ++ (b, c) :: A₂) (A₁.length + 1 + k) = blkAt A₂ k := by
  simp only [blkAt, List.get?_eq_getElem?]
  rw [List.getElem?_append_right (by omega),
    show A₁.length + 1 + k - A₁.length = k + 1 by omega]
  simp

theorem blkAt_append_right (X R : Annot) (k : Nat) (h : X.length ≤ k) :
    blkAt (X ++ R) k = blkAt R (k - X.length) := by
  simp only [blkAt, List.get?_eq_getElem?, List.getElem?_append_right h]

theorem blkAt_drop (A : Annot) (n k : Nat) :
    blkAt (A.drop n) k = blkAt A (n + k) := by
  simp only [blkAt, List.get?_eq_getElem?, List.getElem?_drop]

theorem orig_drop_split (A₁ : Annot) (b : List Char) (c : Char) (A₂ : Annot) :
    (origStr (A₁ ++ (b, c) :: A₂)).drop A₁.length = c :: origStr A₂ := by
  rw [origStr_append, origStr_cons, ← origStr_length A₁, List.drop_left]

theorem orig_take_split (A₁ : Annot) (b : List Char) (c : Char) (A₂ : Annot) :
    (origStr (A₁ ++ (b, c) :: A₂)).take A₁.length = origStr A₁ := by
  rw [origStr_append, origStr_cons, ← origStr_length A₁, List.take_left]

theorem render_drop_split (A₁ : Annot) (b : List Char) (c : Char) (A₂ : Annot) :
    (renderStr (A₁ ++ (b, c) :: A₂)).drop ((renderStr A₁).length + b.length) =
      c :: renderStr A₂ := by
  rw [renderStr_append, renderStr_cons, List.drop_append, List.drop_left]

theorem render_take_split (A₁ : Annot) (b : List Char) (c : Char) (A₂ : Annot) :
    (renderStr (A₁ ++ (b, c) :: A₂)).take ((renderStr A₁).length + b.length) =
      renderStr A₁ ++ b := by
  rw [renderStr_append, renderStr_cons, List.take_append, List.take_left]

theorem render_drop_blockless (A : Annot) (k : Nat)
    (hbl : ∀ j, j < k → blkAt A j = []) :
    (renderStr A).drop k = renderStr (A.drop k) := by
  induction A generalizing k with
  | nil => simp [renderStr_nil]
  | cons bc A ih =>
    obtain ⟨b, c⟩ := bc
    cases k with
    | zero => simp
    | succ k =>
      have hb : b = [] := hbl 0 (by omega)
      rw [renderStr_cons, hb, List.nil_append, List.drop_succ_cons,
        List.drop_succ_cons, ih k fun j hj => hbl (j + 1) (by omega)]

theorem render_at_block (A : Annot) (k : Nat) (b : List Char) (c : Char)
    (hget : A[k]? = some (b, c)) (hb : b ≠ [])
    (hbl : ∀ j, j < k → blkAt A j = []) :
    (renderStr A)[k]? = b[0]? := by
  obtain ⟨hk, hval⟩ := List.getElem?_eq_some.mp hget
  have hdrop : A.drop k = (b, c) :: A.drop (k + 1) := by
    rw [List.drop_eq_getElem_cons hk, hval]
  have h1 : (renderStr A)[k]? = ((renderStr A).drop k)[0]? :=
    (List.getElem?_drop (renderStr A) k 0).symm
  rw [h1, render_drop_blockless A k hbl, hdrop, renderStr_cons,
    List.getElem?_append_left (by cases b with | nil => exact absurd rfl hb | cons x xs => simp)]

theorem drop_length_sub_one (l : List Char) (h : l ≠ []) :
    l.drop (l.length - 1) = [l.getLast h] := by
  calc l.drop (l.length - 1)
      = (l.dropLast ++ [l.getLast h]).drop l.dropLast.length := by
        rw [List.dropLast_append_getLast h, List.length_dropLast]
    _ = [l.getLast h] := List.drop_left _ _

theorem getq_last (l : List Char) (h : l ≠ []) :
    l[l.length - 1]? = l.getLast? := by
  have h2 : l[l.length - 1]? = (l.drop (l.length - 1))[0]? :=
    (List.getElem?_drop l (l.length - 1) 0).symm
  rw [h2, drop_length_sub_one l h, List.getLast?_eq_getLast l h]
  rfl

theorem render_lastN_eq (A : Annot)
    (hbl : ∀ k, k < A.length → A.length ≤ k + 4 → blkAt A k = []) :
    (renderStr A).drop ((renderStr A).length - 5) =
      (origStr A).drop (A.length - 5) := by
  by_cases hlen : A.length ≤ 4
  · have hall : ∀ k, k < A.length → blkAt A k = [] :=
      fun k hk => hbl k hk (by omega)
    rw [renderStr_blockless A hall, origStr_length]
  · have hn5 : 5 ≤ A.length := by omega
    have hBC : A = A.take (A.length - 4) ++ A.drop (A.length - 4) :=
      (List.take_append_drop _ A).symm
    have hBlen : (A.take (A.length - 4)).length = A.length - 4 := by
      rw [List.length_take]; omega
    have hClen : (A.drop (A.length - 4)).length = 4 := by
      rw [List.length_drop]; omega
    have hCbl : ∀ k, k < (A.drop (A.length - 4)).length →
        blkAt (A.drop (A.length - 4)) k = [] := by
      intro k hk
      rw [blkAt_drop]
      exact hbl (A.length - 4 + k) (by omega) (by omega)
    have hCor : renderStr (A.drop (A.length - 4)) = origStr (A.drop (A.length - 4)) :=
      renderStr_blockless _ hCbl
    have hBne : A.take (A.length - 4) ≠ [] := by
      intro h0
      rw [h0] at hBlen
      simp at hBlen
      omega
    have hrBne : renderStr (A.take (A.length - 4)) ≠ [] := by
      intro h0
      have hge := renderStr_length_ge (A.take (A.length - 4))
      rw [h0] at hge
      simp only [List.length_nil] at hge
      rw [hBlen] at hge
      omega
    have hoBne : origStr (A.take (A.length - 4)) ≠ [] := by
      intro h0
      have := origStr_length (A.take (A.length - 4))
      rw [h0] at this
      simp only [List.length_nil] at this
      rw [hBlen] at this
      omega
    have hoClen : (origStr (A.drop (A.length - 4))).length = 4 := by
      rw [origStr_length]; exact hClen
    have hrA : renderStr A =
        renderStr (A.take (A.length - 4)) ++ origStr (A.drop (A.length - 4)) := by
      conv_lhs => rw [hBC]
      rw [renderStr_append, hCor]
    have horA : origStr A =
        origStr (A.take (A.length - 4)) ++ origStr (A.drop (A.length - 4)) := by
      conv_lhs => rw [hBC]
      rw [origStr_append]
    have hrBlen : 1 ≤ (renderStr (A.take (A.length - 4))).length := by
      have hge := renderStr_length_ge (A.take (A.length - 4))
      omega
    have hoBlen : (origStr (A.take (A.length - 4))).length = A.length - 4 := by
      rw [origStr_length]; exact hBlen
    have hL1 : (renderStr A).length - 5 =
        (renderStr (A.take (A.length - 4))).length - 1 := by
      rw [hrA, List.length_append, hoClen]
      omega
    have hR1 : A.length - 5 = (origStr (A.take (A.length - 4))).length - 1 := by
      rw [hoBlen]
      omega
    rw [hL1, hR1, hrA, horA, List.drop_append_eq_append_drop,
      List.drop_append_eq_append_drop,
      show (renderStr (A.take (A.length - 4))).length - 1 -
        (renderStr (A.take (A.length - 4))).length = 0 by omega,
      show (origStr (A.take (A.length - 4))).length - 1 -
        (origStr (A.take (A.length - 4))).length = 0 by omega,
      List.drop_zero]
    congr 1
    rw [drop_length_sub_one _ hrBne, drop_length_sub_one _ hoBne]
    have hg := render_getLast (A.take (A.length - 4)) hBne
    rw [List.getLast?_eq_getLast _ hrBne, List.getLast?_eq_getLast _ hoBne] at hg
    simp only [Option.some.injEq] at hg
    rw [hg]

theorem suppressed_transfer (A₁ : Annot) (c : Char) (A₂ : Annot)
    (hbl : ∀ k, k < A₁.length → A₁.length ≤ k + 4 → blkAt A₁ k = [])
    (hsup : suppressedAt (origStr (A₁ ++ ([], c) :: A₂)) A₁.length hookTags = true) :
    suppressedAt (renderStr (A₁ ++ ([], c) :: A₂)) (renderStr A₁).length hookTags
      = true := by
  by_cases hp : A₁ = []
  · subst hp
    simp [suppressedAt, renderStr_nil]
  · have hpge : 1 ≤ A₁.length := List.length_pos.mpr hp
    have hoA1 : (origStr A₁).length = A₁.length := origStr_length A₁
    have hrge : A₁.length ≤ (renderStr A₁).length := renderStr_length_ge A₁
    have hoA1ne : origStr A₁ ≠ [] := by
      intro h0
      have hz : (origStr A₁).length = 0 := by rw [h0]; rfl
      rw [hoA1] at hz
      omega
    have hrA1ne : renderStr A₁ ≠ [] := by
      intro h0
      have hz : (renderStr A₁).length = 0 := by rw [h0]; rfl
      omega
    have hvtake : (origStr (A₁ ++ ([], c) :: A₂)).take A₁.length = origStr A₁ :=
      orig_take_split A₁ [] c A₂
    have hwtake : (renderStr (A₁ ++ ([], c) :: A₂)).take (renderStr A₁).length
        = renderStr A₁ := by
      have := render_take_split A₁ [] c A₂
      simpa using this
    simp only [suppressedAt, Bool.or_eq_true, decide_eq_true_eq, beq_iff_eq,
      List.get?_eq_getElem?] at hsup ⊢
    rcases hsup with (h0 | hnl) | htag
    · omega
    · refine Or.inl (Or.inr ?_)
      have hv : (origStr (A₁ ++ ([], c) :: A₂))[A₁.length - 1]? =
          (origStr A₁).getLast? := by
        rw [origStr_append, origStr_cons,
          List.getElem?_append_left (by omega), ← hoA1, getq_last _ hoA1ne]
      have hw : (renderStr (A₁ ++ ([], c) :: A₂))[(renderStr A₁).length - 1]? =
          (renderStr A₁).getLast? := by
        rw [renderStr_append, renderStr_cons, List.nil_append,
          List.getElem?_append_left (by omega), getq_last _ hrA1ne]
      rw [hw, render_getLast A₁ hp, ← hv]
      exact hnl
    · refine Or.inr ?_
      rw [hwtake, render_lastN_eq A₁ hbl]
      rw [hvtake] at htag
      exact htag

theorem reach_le {mlen : List Char → Option Nat} {s : List Char} {i p : Nat}
    (h : Reach mlen s i p) : i ≤ p := by
  induction h with
  | refl => exact Nat.le_refl i
  | step _ _ _ ih => omega
  | jump _ _ _ ih => omega

theorem reach_trans {mlen : List Char → Option Nat} {s : List Char} {a b c : Nat}
    (h1 : Reach mlen s a b) (h2 : Reach mlen s b c) : Reach mlen s a c := by
  induction h2 with
  | refl => exact h1
  | step _ hlt hnone ih => exact .step ih hlt hnone
  | jump _ hlt hsome ih => exact .jump ih hlt hsome

theorem reach_factor {mlen : List Char → Option Nat} {s : List Char} {i p : Nat}
    (h : Reach mlen s i p) (hne : i < p) :
    (mlen (s.drop i) = none → Reach mlen s (i + 1) p) ∧
    (∀ L, mlen (s.drop i) = some L → i + L ≤ p ∧ Reach mlen s (i + L) p) := by
  induction h with
  | refl => omega
  | @step y hy hlt hnone ih =>
    by_cases hiy : i < y
    · obtain ⟨ihn, ihs⟩ := ih hiy
      exact ⟨fun hn => .step (ihn hn) hlt hnone,
        fun L hs => ⟨by have := (ihs L hs).1; omega, .step (ihs L hs).2 hlt hnone⟩⟩
    · have hieq : i = y := by omega
      subst hieq
      exact ⟨fun _ => .refl, fun L hs => by rw [hs] at hnone; cases hnone⟩
  | @jump y L' hy hlt hsome ih =>
    by_cases hiy : i < y
    · obtain ⟨ihn, ihs⟩ := ih hiy
      exact ⟨fun hn => .jump (ihn hn) hlt hsome,
        fun L hs => ⟨by have := (ihs L hs).1; omega, .jump (ihs L hs).2 hlt hsome⟩⟩
    · have hile : i ≤ y := reach_le hy
      have hieq : i = y := by omega
      subst hieq
      refine ⟨fun hn => ?_, fun L hs => ?_⟩
      · rw [hn] at hsome
        cases hsome
      rw [hs] at hsome
      have hLL : L = L' := by cases hsome; rfl
      subst hLL
      exact ⟨Nat.le_refl _, .refl⟩

theorem matchdet_bound (mlen : List Char → Option Nat) (bodyChar : Char → Bool)
    (hdet : MatchDet mlen bodyChar) (s : List Char) (q L : Nat)
    (h : mlen (s.drop q) = some L) : q + L ≤ s.length ∧ 3 ≤ L := by
  obtain ⟨E, h3, hE2, hElen, _⟩ := hdet _ _ h
  rw [List.length_drop] at hElen
  omega

theorem reach_free (mlen : List Char → Option Nat) (bodyChar : Char → Bool)
    (hdet : MatchDet mlen bodyChar)
    (hbsp : ∀ ch, bodyChar ch = true → isJsSpace ch = false)
    (s : List Char) (x : Nat) (hr : Reach mlen s 0 x) :
    FreeAt mlen s x := by
  induction hr with
  | refl => rintro ⟨q, Lq, _, hq, _⟩; omega
  | @step i hi hlt hnone ih =>
    rintro ⟨q, Lq, hqm, hq1, hq2⟩
    by_cases hqi : q = i
    · subst hqi
      rw [hqm] at hnone
      cases hnone
    · exact ih ⟨q, Lq, hqm, by omega, by omega⟩
  | @jump i L hi hlt hsome ih =>
    rintro ⟨q, Lq, hqm, hq1, hq2⟩
    obtain ⟨E, h3, hE2, hElen, hbody, hsp, hlet, _⟩ := hdet _ _ hsome
    rcases Nat.lt_trichotomy q i with hqi | hqi | hqi
    · by_cases hiq : i < q + Lq
      · exact ih ⟨q, Lq, hqm, hqi, hiq⟩
      · omega
    · subst hqi
      rw [hqm] at hsome
      have : Lq = L := by cases hsome; rfl
      omega
    · -- i < q < i + L: the space at offset L of the i-match is a body char of
      -- the q-match, contradiction.
      have hLlt : L < (s.drop i).length := by omega
      obtain ⟨ch, hch⟩ : ∃ ch, (s.drop i)[L]? = some ch :=
        ⟨_, List.getElem?_eq_getElem hLlt⟩
      have hchsp : isJsSpace ch = true := hsp L ch (Nat.le_refl _) (by omega) hch
      obtain ⟨Eq', hLq3, hEq2, hEqlen, hqbody, _, _, _⟩ := hdet _ _ hqm
      have hofs : i + L - q < Lq := by omega
      have hch' : (s.drop q)[i + L - q]? = some ch := by
        rw [List.getElem?_drop, show q + (i + L - q) = i + L by omega,
          ← List.getElem?_drop]
        exact hch
      have hchb : bodyChar ch = true := hqbody (i + L - q) ch hofs hch'
      rw [hbsp ch hchb] at hchsp
      cases hchsp

theorem reach_dichotomy (mlen : List Char → Option Nat) (s : List Char)
    (hLpos : ∀ q L, mlen (s.drop q) = some L → 1 ≤ L)
    (p : Nat) (hp : p ≤ s.length) :
    Reach mlen s 0 p ∨
      ∃ q Lq, Reach mlen s 0 q ∧ mlen (s.drop q) = some Lq ∧ q < p ∧ p < q + Lq := by
  induction p with
  | zero => exact Or.inl .refl
  | succ p ih =>
    rcases ih (by omega) with hv | ⟨q, Lq, hqr, hqm, hq1, hq2⟩
    · have hplt : p < s.length := by omega
      cases hm : mlen (s.drop p) with
      | none => exact Or.inl (.step hv hplt hm)
      | some L =>
        by_cases hL1 : L = 1
        · refine Or.inl ?_
          have := Reach.jump hv hplt hm
          rwa [hL1] at this
        · have hL2 : 2 ≤ L := by have := hLpos p L hm; omega
          exact Or.inr ⟨p, L, hv, hm, by omega, by omega⟩
    · by_cases hend : p + 1 < q + Lq
      · exact Or.inr ⟨q, Lq, hqr, hqm, by omega, hend⟩
      · have hqlt : q < s.length := by omega
        have heq : p + 1 = q + Lq := by omega
        refine Or.inl ?_
        have := Reach.jump hqr hqlt hqm
        rwa [← heq] at this

theorem scan_stable (mlen : List Char → Option Nat) (bodyChar : Char → Bool)
    (hdet : MatchDet mlen bodyChar)
    (hbsp : ∀ ch, bodyChar ch = true → isJsSpace ch = false)
    (repl : List Char → Nat → Nat → List Char) (s : List Char)
    (hrepl : ∀ i L, suppressedAt s i hookTags = true → repl s i L = (s.drop i).take L)
    (hstable : StableStr mlen hookTags s) :
    ∀ fuel i, s.length ≤ fuel + i → Reach mlen s 0 i →
      scanFrom mlen repl s fuel i = s.drop i := by
  intro fuel
  induction fuel with
  | zero =>
    intro i hle _
    rw [List.drop_eq_nil_of_le (by omega)]
    rfl
  | succ fuel ih =>
    intro i hle hr
    by_cases hi : i < s.length
    · simp only [scanFrom, hi, if_true]
      cases hm : mlen (s.drop i) with
      | none =>
        rw [ih (i + 1) (by omega) (.step hr hi hm)]
        rw [List.drop_eq_getElem_cons hi]
        rfl
      | some L =>
        have hfr : FreeAt mlen s i := reach_free mlen bodyChar hdet hbsp s i hr
        have hsup : suppressedAt s i hookTags = true := hstable i L hm hfr
        have hL3 : 3 ≤ L := (matchdet_bound mlen bodyChar hdet s i L hm).2
        show repl s i L ++ scanFrom mlen repl s fuel (i + L) = s.drop i
        rw [hrepl i L hsup, ih (i + L) (by omega) (.jump hr hi hm)]
        rw [show s.drop (i + L) = (s.drop i).drop L from (List.drop_drop L i s).symm,
          List.take_append_drop]
    · simp only [scanFrom, hi, if_false]
      rw [List.drop_eq_nil_of_le (by omega)]

theorem jsReplace_stable (mlen : List Char → Option Nat) (bodyChar : Char → Bool)
    (hdet : MatchDet mlen bodyChar)
    (hbsp : ∀ ch, bodyChar ch = true → isJsSpace ch = false)
    (repl : List Char → Nat → Nat → List Char) (s : List Char)
    (hrepl : ∀ i L, suppressedAt s i hookTags = true → repl s i L = (s.drop i).take L)
    (hstable : StableStr mlen hookTags s) :
    jsReplace mlen repl s = s := by
  unfold jsReplace
  rw [scan_stable mlen bodyChar hdet hbsp repl s hrepl hstable s.length 0
    (by omega) .refl]
  rfl

theorem blkAt_cons_zero (a : List Char) (c : Char) (R : Annot) :
    blkAt ((a, c) :: R) 0 = a := rfl

theorem blkAt_plain (l : List Char) (k : Nat) :
    blkAt (l.map fun c => (([] : List Char), c)) k = [] := by
  simp only [blkAt, List.get?_eq_getElem?, List.getElem?_map]
  cases hx : l[k]? <;> simp

theorem origStr_plain (l : List Char) :
    origStr (l.map fun c => (([] : List Char), c)) = l := by
  induction l with
  | nil => rfl
  | cons c l ih => simp only [List.map_cons, origStr_cons, ih]

theorem renderStr_plain (l : List Char) :
    renderStr (l.map fun c => (([] : List Char), c)) = l := by
  induction l with
  | nil => rfl
  | cons c l ih =>
    rw [List.map_cons, renderStr_cons, ih, List.nil_append]

theorem annotate_succ_none (mlen : List Char → Option Nat)
    (tags : List (List Char)) (ins : List Char) (s : List Char) (fuel i : Nat)
    (hi : i < s.length) (hm : mlen (s.drop i) = none) :
    annotate mlen tags ins s (fuel + 1) i =
      (([] : List Char), s.get ⟨i, hi⟩) :: annotate mlen tags ins s fuel (i + 1) := by
  simp only [annotate]
  rw [dif_pos hi, hm]

theorem annotate_succ_some (mlen : List Char → Option Nat)
    (tags : List (List Char)) (ins : List Char) (s : List Char) (fuel i L : Nat)
    (hi : i < s.length) (hm : mlen (s.drop i) = some L) :
    annotate mlen tags ins s (fuel + 1) i =
      ((if suppressedAt s i tags then [] else ins), s.get ⟨i, hi⟩) ::
        ((((s.drop (i + 1)).take (L - 1)).map fun c => (([] : List Char), c)) ++
          annotate mlen tags ins s fuel (i + L)) := by
  simp only [annotate]
  rw [dif_pos hi, hm]

theorem annotate_stop (mlen : List Char → Option Nat)
    (tags : List (List Char)) (ins : List Char) (s : List Char) (fuel i : Nat)
    (hi : ¬ i < s.length) :
    annotate mlen tags ins s (fuel + 1) i = [] := by
  simp only [annotate]
  rw [dif_neg hi]

theorem scanFrom_succ_none (mlen : List Char → Option Nat)
    (repl : List Char → Nat → Nat → List Char) (s : List Char) (fuel i : Nat)
    (hi : i < s.length) (hm : mlen (s.drop i) = none) :
    scanFrom mlen repl s (fuel + 1) i =
      (s.drop i).take 1 ++ scanFrom mlen repl s fuel (i + 1) := by
  simp only [scanFrom]
  rw [if_pos hi, hm]

theorem scanFrom_succ_some (mlen : List Char → Option Nat)
    (repl : List Char → Nat → Nat → List Char) (s : List Char) (fuel i L : Nat)
    (hi : i < s.length) (hm : mlen (s.drop i) = some L) :
    scanFrom mlen repl s (fuel + 1) i =
      repl s i L ++ scanFrom mlen repl s fuel (i + L) := by
  simp only [scanFrom]
  rw [if_pos hi, hm]

theorem annotate_orig (mlen : List Char → Option Nat) (tags : List (List Char))
    (ins : List Char) (s : List Char)
    (hbound : ∀ q L, mlen (s.drop q) = some L → q + L ≤ s.length ∧ 1 ≤ L) :
    ∀ fuel i, s.length ≤ fuel + i →
      origStr (annotate mlen tags ins s fuel i) = s.drop i := by
  intro fuel
  induction fuel with
  | zero =>
    intro i hle
    rw [List.drop_eq_nil_of_le (by omega)]
    rfl
  | succ fuel ih =>
    intro i hle
    by_cases hi : i < s.length
    · cases hm : mlen (s.drop i) with
      | none =>
        rw [annotate_succ_none mlen tags ins s fuel i hi hm, origStr_cons,
          ih (i + 1) (by omega), List.drop_eq_getElem_cons hi,
          List.get_eq_getElem]
      | some L =>
        obtain ⟨hb, hL1⟩ := hbound i L hm
        have hdd : s.drop (i + L) = (s.drop (i + 1)).drop (L - 1) := by
          rw [List.drop_drop]
          congr 1
          omega
        rw [annotate_succ_some mlen tags ins s fuel i L hi hm, origStr_cons,
          origStr_append, origStr_plain, ih (i + L) (by omega), hdd,
          List.take_append_drop, List.get_eq_getElem,
          ← List.drop_eq_getElem_cons hi]
    · rw [annotate_stop mlen tags ins s fuel i hi,
        List.drop_eq_nil_of_le (by omega)]
      rfl

theorem annotate_render (mlen : List Char → Option Nat) (tags : List (List Char))
    (ins : List Char) (repl : List Char → Nat → Nat → List Char) (s : List Char)
    (hbound : ∀ q L, mlen (s.drop q) = some L → q + L ≤ s.length ∧ 1 ≤ L)
    (hrepl : ∀ j L, repl s j L =
      (if suppressedAt s j tags then [] else ins) ++ matchText s j L) :
    ∀ fuel i,
      renderStr (annotate mlen tags ins s fuel i) = scanFrom mlen repl s fuel i := by
  intro fuel
  induction fuel with
  | zero => intro i; rfl
  | succ fuel ih =>
    intro i
    by_cases hi : i < s.length
    · cases hm : mlen (s.drop i) with
      | none =>
        rw [annotate_succ_none mlen tags ins s fuel i hi hm,
          scanFrom_succ_none mlen repl s fuel i hi hm, renderStr_cons, ih,
          List.nil_append, List.drop_eq_getElem_cons hi, List.take_succ_cons,
          List.take_zero, List.get_eq_getElem, List.cons_append, List.nil_append]
      | some L =>
        obtain ⟨hb, hL1⟩ := hbound i L hm
        have hmt : matchText s i L =
            s.get ⟨i, hi⟩ :: (s.drop (i + 1)).take (L - 1) := by
          unfold matchText
          rw [List.drop_eq_getElem_cons hi]
          cases L with
          | zero => exact absurd hL1 (by omega)
          | succ L' =>
            rw [List.take_succ_cons, List.get_eq_getElem]
            simp only [Nat.add_sub_cancel]
        rw [annotate_succ_some mlen tags ins s fuel i L hi hm,
          scanFrom_succ_some mlen repl s fuel i L hi hm, renderStr_cons,
          renderStr_append, renderStr_plain, ih, hrepl i L,
          List.append_assoc, hmt, List.cons_append]
    · rw [annotate_stop mlen tags ins s fuel i hi]
      simp only [scanFrom]
      rw [if_neg hi]
      rfl

theorem annotate_block (mlen : List Char → Option Nat) (tags : List (List Char))
    (ins : List Char) (s : List Char)
    (hbound : ∀ q L, mlen (s.drop q) = some L → q + L ≤ s.length ∧ 1 ≤ L) :
    ∀ fuel i k, blkAt (annotate mlen tags ins s fuel i) k ≠ [] →
      blkAt (annotate mlen tags ins s fuel i) k = ins ∧
        Reach mlen s i (i + k) ∧ (∃ L, mlen (s.drop (i + k)) = some L) ∧
        suppressedAt s (i + k) tags = false := by
  intro fuel
  induction fuel with
  | zero =>
    intro i k h
    exact absurd rfl h
  | succ fuel ih =>
    intro i k hk
    by_cases hi : i < s.length
    · cases hm : mlen (s.drop i) with
      | none =>
        rw [annotate_succ_none mlen tags ins s fuel i hi hm] at hk ⊢
        cases k with
        | zero => exact absurd rfl hk
        | succ k' =>
          rw [blkAt_cons_succ] at hk ⊢
          obtain ⟨hins, hr, hex, hsupf⟩ := ih (i + 1) k' hk
          refine ⟨hins, ?_, ?_, ?_⟩
          · exact reach_trans (.step .refl hi hm)
              (by rwa [show (i + 1) + k' = i + (k' + 1) by omega] at hr)
          · obtain ⟨Lx, hLx⟩ := hex
            exact ⟨Lx, by rwa [show (i + 1) + k' = i + (k' + 1) by omega] at hLx⟩
          · rwa [show (i + 1) + k' = i + (k' + 1) by omega] at hsupf
      | some L =>
        obtain ⟨hb, hL1⟩ := hbound i L hm
        have hmlen : (((s.drop (i + 1)).take (L - 1)).map
            fun c => (([] : List Char), c)).length = L - 1 := by
          rw [List.length_map, List.length_take, List.length_drop]
          omega
        rw [annotate_succ_some mlen tags ins s fuel i L hi hm] at hk ⊢
        cases k with
        | zero =>
          rw [blkAt_cons_zero] at hk ⊢
          cases hsup : suppressedAt s i tags with
          | true =>
            rw [if_pos hsup] at hk
            exact absurd rfl hk
          | false =>
            refine ⟨by rw [if_neg Bool.false_ne_true], ?_, ?_, ?_⟩
            · rw [Nat.add_zero]
              exact .refl
            · exact ⟨L, by rwa [Nat.add_zero]⟩
            · rwa [Nat.add_zero]
        | succ k' =>
          rw [blkAt_cons_succ] at hk ⊢
          by_cases hkm : k' < L - 1
          · rw [blkAt_append_left _ _ _ (by omega), blkAt_plain] at hk
            exact absurd rfl hk
          · rw [blkAt_append_right _ _ _ (by omega), hmlen] at hk ⊢
            obtain ⟨hins, hr, hex, hsupf⟩ := ih (i + L) (k' - (L - 1)) hk
            have hidx : (i + L) + (k' - (L - 1)) = i + (k' + 1) := by omega
            refine ⟨hins, ?_, ?_, ?_⟩
            · exact reach_trans (.jump .refl hi hm) (by rwa [hidx] at hr)
            · obtain ⟨Lx, hLx⟩ := hex
              exact ⟨Lx, by rwa [hidx] at hLx⟩
            · rwa [hidx] at hsupf
    · rw [annotate_stop mlen tags ins s fuel i hi] at hk
      exact absurd rfl hk

theorem annotate_visited (mlen : List Char → Option Nat) (tags : List (List Char))
    (ins : List Char) (s : List Char)
    (hbound : ∀ q L, mlen (s.drop q) = some L → q + L ≤ s.length ∧ 1 ≤ L) :
    ∀ fuel i p L, s.length ≤ fuel + i → Reach mlen s i p → p < s.length →
      mlen (s.drop p) = some L → suppressedAt s p tags = false →
      blkAt (annotate mlen tags ins s fuel i) (p - i) = ins := by
  intro fuel
  induction fuel with
  | zero =>
    intro i p L hle hr hp hm hsup
    have := reach_le hr
    exact absurd hp (by omega)
  | succ fuel ih =>
    intro i p L hle hr hp hm hsup
    have hip := reach_le hr
    by_cases hi : i < s.length
    · by_cases hieq : i = p
      · subst hieq
        rw [annotate_succ_some mlen tags ins s fuel i L hi hm, Nat.sub_self,
          blkAt_cons_zero, if_neg (by rw [hsup]; exact Bool.false_ne_true)]
      · have hilt : i < p := by omega
        obtain ⟨hfn, hfs⟩ := reach_factor hr hilt
        cases hmI : mlen (s.drop i) with
        | none =>
          rw [annotate_succ_none mlen tags ins s fuel i hi hmI,
            show p - i = (p - (i + 1)) + 1 by omega, blkAt_cons_succ]
          exact ih (i + 1) p L (by omega) (hfn hmI) hp hm hsup
        | some LI =>
          obtain ⟨hble, hr'⟩ := hfs LI hmI
          obtain ⟨hb, hL1⟩ := hbound i LI hmI
          have hmlen : (((s.drop (i + 1)).take (LI - 1)).map
              fun c => (([] : List Char), c)).length = LI - 1 := by
            rw [List.length_map, List.length_take, List.length_drop]
            omega
          rw [annotate_succ_some mlen tags ins s fuel i LI hi hmI,
            show p - i = (p - i - 1) + 1 by omega, blkAt_cons_succ,
            blkAt_append_right _ _ _ (by rw [hmlen]; omega), hmlen,
            show p - i - 1 - (LI - 1) = p - (i + LI) by omega]
          exact ih (i + LI) p L (by omega) hr' hp hm hsup
    · exact absurd hp (by omega)

theorem sep_lemma (mlen : List Char → Option Nat) (bodyChar : Char → Bool)
    (hdet : MatchDet mlen bodyChar) (v : List Char) (x p Lx : Nat)
    (hxm : mlen (v.drop x) = some Lx) (hxp : x < p) (hnin : ¬ p < x + Lx)
    (hhd : ∀ ch, v[p]? = some ch →
      isJsSpace ch = false ∧ isAsciiLetter ch = false) :
    x + 5 ≤ p := by
  obtain ⟨Ex, hL3, hE2, hElen, hbody, hsp, hlet, _⟩ := hdet _ _ hxm
  by_cases hpe : p < x + Ex
  · exfalso
    have hofs : p - x < (v.drop x).length := by omega
    obtain ⟨ch, hch⟩ : ∃ ch, (v.drop x)[p - x]? = some ch :=
      ⟨_, List.getElem?_eq_getElem hofs⟩
    have hchv : v[p]? = some ch := by
      rw [← hch, List.getElem?_drop]
      congr 1
      omega
    obtain ⟨hs, hl⟩ := hhd ch hchv
    by_cases hlast : p - x < Ex - 1
    · have := hsp (p - x) ch (by omega) hlast hch
      rw [hs] at this
      cases this
    · have hpeq : p - x = Ex - 1 := by omega
      have := hlet ch (by rwa [hpeq] at hch)
      rw [hl] at this
      cases this
  · omega

theorem head_not_inside (mlen : List Char → Option Nat) (bodyChar : Char → Bool)
    (hdet : MatchDet mlen bodyChar) (v : List Char) (x p Lx : Nat)
    (hxm : mlen (v.drop x) = some Lx) (hxp : x < p)
    (hhd : ∀ ch, v[p]? = some ch → bodyChar ch = false) :
    ¬ p < x + Lx := by
  intro hlt
  obtain ⟨Ex, hL3, hE2, hElen, hbody, _, _, _⟩ := hdet _ _ hxm
  have hofs : p - x < Lx := by omega
  have hlen : p - x < (v.drop x).length := by omega
  obtain ⟨ch, hch⟩ : ∃ ch, (v.drop x)[p - x]? = some ch :=
    ⟨_, List.getElem?_eq_getElem hlen⟩
  have hchv : v[p]? = some ch := by
    rw [← hch, List.getElem?_drop]
    congr 1
    omega
  have hb := hbody (p - x) ch hofs hch
  rw [hhd ch hchv] at hb
  cases hb

theorem master_stable (mlen : List Char → Option Nat) (bodyChar : Char → Bool)
    (hdet : MatchDet mlen bodyChar)
    (hblt : ∀ ch, bodyChar ch = true → ch ≠ '<')
    (hhd : ∀ r L, mlen r = some L → ∀ ch, r[0]? = some ch →
      isJsSpace ch = false ∧ isAsciiLetter ch = false ∧ inBlockAlpha ch = false)
    (A : Annot)
    (hblock : ∀ x, blkAt A x ≠ [] → BlockOK (blkAt A x))
    (hchar : ∀ x ch, blkAt A x ≠ [] → (origStr A)[x]? = some ch →
      isJsSpace ch = false ∧ isAsciiLetter ch = false)
    (hnotin : ∀ x, blkAt A x ≠ [] → ∀ q Lq, mlen ((origStr A).drop q) = some Lq →
      ¬(q < x ∧ x < q + Lq))
    (hfreeSup : ∀ p L, mlen ((origStr A).drop p) = some L →
      FreeAt mlen (origStr A) p → blkAt A p = [] →
      suppressedAt (origStr A) p hookTags = true ∧
        ∀ x, blkAt A x ≠ [] → x < p → x + 5 ≤ p) :
    StableStr mlen hookTags (renderStr A) := by
  intro j L hmatch hfw
  obtain ⟨E, hL3, hE2, hElen, hbody, hsp, hlet, hdetm⟩ := hdet _ _ hmatch
  have hjlen : j < (renderStr A).length := by
    have h := hElen
    rw [List.length_drop] at h
    omega
  obtain ⟨c0, hc0⟩ : ∃ c0, ((renderStr A).drop j)[0]? = some c0 := by
    have h0 : 0 < ((renderStr A).drop j).length := by omega
    exact ⟨_, List.getElem?_eq_getElem h0⟩
  have hc0w : (renderStr A)[j]? = some c0 := by
    rw [← hc0, List.getElem?_drop]
    rfl
  obtain ⟨hc0sp, hc0lt, hc0blk⟩ := hhd _ _ hmatch c0 hc0
  rcases render_split A j hjlen with
    ⟨A₁, b, c, A₂, heqA, hjpos, hchar_j⟩ |
    ⟨A₁, b, c, A₂, k, heqA, hkb, hjpos, hchar_j⟩
  · -- the match starts at an original character
    have hvdrop : (origStr A).drop A₁.length = c :: origStr A₂ := by
      rw [heqA]
      exact orig_drop_split A₁ b c A₂
    have hwdrop : (renderStr A).drop j = c :: renderStr A₂ := by
      rw [heqA, hjpos]
      exact render_drop_split A₁ b c A₂
    -- the examined region of the match carries no inserted blocks
    have hreg : ∀ m, m < E - 1 → blkAt A₂ m = [] := by
      intro m
      induction m using Nat.strong_induction_on with
      | _ m ihm =>
        intro hmE
        by_contra hne
        have hpre : ∀ m', m' < m → blkAt A₂ m' = [] :=
          fun m' hm' => ihm m' hm' (by omega)
        have hmlen2 : m < A₂.length := by
          by_contra hge
          apply hne
          unfold blkAt
          rw [List.get?_eq_getElem?, List.getElem?_eq_none (by omega)]
          rfl
        rcases hgq : A₂[m]? with _ | ⟨bk, ck⟩
        · rw [List.getElem?_eq_getElem hmlen2] at hgq
          cases hgq
        · have hbk : blkAt A₂ m = bk := by
            unfold blkAt
            rw [List.get?_eq_getElem?, hgq]
            rfl
          rw [hbk] at hne
          have hblkA : blkAt A (A₁.length + 1 + m) = blkAt A₂ m := by
            rw [heqA]
            exact blkAt_split_mid A₁ b c A₂ m
          have hBOK : BlockOK bk := by
            have := hblock (A₁.length + 1 + m) (by rw [hblkA, hbk]; exact hne)
            rwa [hblkA, hbk] at this
          have hrk : (renderStr A₂)[m]? = bk[0]? :=
            render_at_block A₂ m bk ck hgq hne hpre
          have hbk0 : bk[0]? = some '<' := by
            rw [← List.head?_eq_getElem?]
            exact hBOK.1
          have hwk : ((renderStr A).drop j)[m + 1]? = some '<' := by
            rw [hwdrop, List.getElem?_cons_succ, hrk, hbk0]
          by_cases hkL : m + 1 < L
          · have := hbody (m + 1) '<' hkL hwk
            exact hblt '<' this rfl
          · by_cases hkE1 : m + 1 < E - 1
            · have := hsp (m + 1) '<' (by omega) hkE1 hwk
              rw [show isJsSpace '<' = false from by decide] at this
              cases this
            · have hkeq : m + 1 = E - 1 := by omega
              have := hlet '<' (by rwa [hkeq] at hwk)
              rw [show isAsciiLetter '<' = false from by decide] at this
              cases this
    -- back-translate the match to the original string
    have htake : ((renderStr A).drop j).take E
        = ((origStr A).drop A₁.length).take E := by
      rw [hwdrop, hvdrop]
      obtain ⟨E1, hE1⟩ : ∃ E1, E = E1 + 1 := ⟨E - 1, by omega⟩
      rw [hE1, List.take_succ_cons, List.take_succ_cons,
        render_take_eq A₂ E1 fun m hm => hreg m (by omega)]
    have hvmatch : mlen ((origStr A).drop A₁.length) = some L := hdetm _ htake
    by_cases hb0 : b = []
    · -- no block in front of the match: transfer the original suppression
      subst hb0
      have hfv : FreeAt mlen (origStr A) A₁.length := by
        rintro ⟨q, Lq, hqm, hq1, hq2⟩
        obtain ⟨Eq', hLq3, hEq2, hEqlen, hqbody, hqsp, hqlet, hqdetm⟩ :=
          hdet _ _ hqm
        have hregv : ∀ m, 0 < m → m < Eq' → blkAt A (q + m) = [] := by
          intro m hm0 hmE
          by_cases hmL : m < Lq
          · by_contra hne
            exact hnotin _ hne q Lq hqm ⟨by omega, by omega⟩
          · by_contra hne
            have hmlen2 : m < ((origStr A).drop q).length := by omega
            obtain ⟨ch, hch⟩ : ∃ ch, ((origStr A).drop q)[m]? = some ch :=
              ⟨_, List.getElem?_eq_getElem hmlen2⟩
            have hchv : (origStr A)[q + m]? = some ch := by
              rw [← List.getElem?_drop]
              exact hch
            obtain ⟨hcs, hcl⟩ := hchar _ ch hne hchv
            by_cases hmE1 : m < Eq' - 1
            · have := hqsp m ch (by omega) hmE1 hch
              rw [hcs] at this
              cases this
            · have hmeq : m = Eq' - 1 := by omega
              have := hqlet ch (by rwa [hmeq] at hch)
              rw [hcl] at this
              cases this
        have hqlt : q < A₁.length := hq1
        have hq_take : A₁ = A₁.take q ++ A₁.drop q := (List.take_append_drop q A₁).symm
        have hAdrop : A₁.drop q = A₁[q] :: A₁.drop (q + 1) :=
          List.drop_eq_getElem_cons hqlt
        rcases hpq : A₁[q] with ⟨bq, cq⟩
        have heqB : A = A₁.take q ++ (bq, cq) ::
            (A₁.drop (q + 1) ++ ([], c) :: A₂) := by
          rw [heqA]
          conv_lhs => rw [hq_take, hAdrop, hpq]
          rw [List.append_assoc, List.cons_append]
        have hqlen_take : (A₁.take q).length = q := by
          rw [List.length_take]
          omega
        have hvq : (origStr A).drop q
            = cq :: origStr (A₁.drop (q + 1) ++ ([], c) :: A₂) := by
          have h := orig_drop_split (A₁.take q) bq cq (A₁.drop (q + 1) ++ ([], c) :: A₂)
          rw [hqlen_take] at h
          rw [heqB]
          exact h
        have hwq : (renderStr A).drop ((renderStr (A₁.take q)).length + bq.length)
            = cq :: renderStr (A₁.drop (q + 1) ++ ([], c) :: A₂) := by
          rw [heqB]
          exact render_drop_split (A₁.take q) bq cq _
        have hregB : ∀ m, m < Eq' - 1 →
            blkAt (A₁.drop (q + 1) ++ ([], c) :: A₂) m = [] := by
          intro m hm
          have hshift : blkAt A (q + 1 + m)
              = blkAt (A₁.drop (q + 1) ++ ([], c) :: A₂) m := by
            rw [heqB]
            have h := blkAt_split_mid (A₁.take q) bq cq
              (A₁.drop (q + 1) ++ ([], c) :: A₂) m
            rwa [hqlen_take] at h
          rw [← hshift]
          have h := hregv (1 + m) (by omega) (by omega)
          rwa [show q + (1 + m) = q + 1 + m by omega] at h
        have htakeq : ((origStr A).drop q).take Eq'
            = ((renderStr A).drop
                ((renderStr (A₁.take q)).length + bq.length)).take Eq' := by
          rw [hvq, hwq]
          obtain ⟨E1, hE1⟩ : ∃ E1, Eq' = E1 + 1 := ⟨Eq' - 1, by omega⟩
          rw [hE1, List.take_succ_cons, List.take_succ_cons,
            render_take_eq _ E1 fun m hm => hregB m (by omega)]
        have hwqm : mlen ((renderStr A).drop
            ((renderStr (A₁.take q)).length + bq.length)) = some Lq :=
          hqdetm _ htakeq
        have hD1bl : ∀ m, m < (A₁.drop (q + 1)).length →
            blkAt (A₁.drop (q + 1)) m = [] := by
          intro m hm
          rw [blkAt_drop]
          have hlt : q + 1 + m < A₁.length := by
            rw [List.length_drop] at hm
            omega
          have hA : blkAt A (q + 1 + m) = blkAt A₁ (q + 1 + m) := by
            rw [heqA]
            exact blkAt_append_left A₁ _ (q + 1 + m) hlt
          rw [← hA]
          have h := hregv (1 + m) (by omega) (by omega)
          rwa [show q + (1 + m) = q + 1 + m by omega] at h
        have hlenD1 : (renderStr (A₁.drop (q + 1))).length = A₁.length - (q + 1) := by
          rw [renderStr_blockless _ hD1bl, origStr_length, List.length_drop]
        have hx : renderStr A₁ = renderStr (A₁.take q)
            ++ (bq ++ cq :: renderStr (A₁.drop (q + 1))) := by
          conv_lhs => rw [hq_take, hAdrop, hpq]
          rw [renderStr_append, renderStr_cons]
        have hjq : j = (renderStr (A₁.take q)).length + bq.length
            + (A₁.length - q) := by
          rw [hjpos, hx]
          simp only [List.length_nil, Nat.add_zero, List.length_append,
            List.length_cons, hlenD1]
          omega
        exact hfw ⟨(renderStr (A₁.take q)).length + bq.length, Lq, hwqm,
          by omega, by omega⟩
      have hbA : blkAt A A₁.length = [] := by
        rw [heqA]
        exact blkAt_split A₁ [] c A₂
      obtain ⟨hsupv, hfar⟩ := hfreeSup A₁.length L hvmatch hfv hbA
      have hbl : ∀ k, k < A₁.length → A₁.length ≤ k + 4 → blkAt A₁ k = [] := by
        intro k hk hk4
        by_contra hne
        have hA : blkAt A k = blkAt A₁ k := by
          rw [heqA]
          exact blkAt_append_left A₁ _ k hk
        have hne' : blkAt A k ≠ [] := by
          rw [hA]
          exact hne
        have := hfar k hne' hk
        omega
      have htr := suppressed_transfer A₁ c A₂ hbl (by rw [← heqA]; exact hsupv)
      rw [heqA, hjpos]
      simpa using htr
    · -- a block directly precedes the match: its <br/> tail suppresses it
      have hblkb : blkAt A A₁.length = b := by
        rw [heqA]
        exact blkAt_split A₁ b c A₂
      have hBOKb : BlockOK b := by
        have := hblock A₁.length (by rw [hblkb]; exact hb0)
        rwa [hblkb] at this
      obtain ⟨hhead, hsuf, hall⟩ := hBOKb
      obtain ⟨pre, hpre⟩ : ∃ pre, pre ++ "<br/>".data = b := by
        rw [List.isSuffixOf_iff_suffix] at hsuf
        exact hsuf
      have hwtake : (renderStr A).take j = renderStr A₁ ++ b := by
        rw [heqA, hjpos]
        exact render_take_split A₁ b c A₂
      have hwin : ((renderStr A).take j).drop (j - 5) = "<br/>".data := by
        rw [hwtake, ← hpre, hjpos, ← hpre, ← List.append_assoc]
        have hidx : (renderStr A₁).length + (pre ++ "<br/>".data).length - 5
            = (renderStr A₁ ++ pre).length := by
          simp only [List.length_append, show ("<br/>".data).length = 5 from rfl]
          omega
        rw [hidx, List.drop_left]
      unfold suppressedAt
      rw [hwin]
      have htag : (hookTags.any
          fun t => t.isSuffixOf (("<br/>".data).map asciiLower)) = true := by
        decide
      rw [htag, Bool.or_true]
  · -- the match cannot start inside an inserted block
    exfalso
    have hblkb : blkAt A A₁.length = b := by
      rw [heqA]
      exact blkAt_split A₁ b c A₂
    have hbne : b ≠ [] := by
      intro h0
      rw [h0] at hkb
      simp at hkb
    have hBOK : BlockOK b := by
      have := hblock A₁.length (by rw [hblkb]; exact hbne)
      rwa [hblkb] at this
    have hc0b : b[k]? = some c0 := by
      rw [← hchar_j]
      exact hc0w
    have hc0mem : c0 ∈ b := mem_of_getq hc0b
    have := hBOK.2.2 c0 hc0mem
    rw [hc0blk] at this
    cases this

theorem numBody_not_space (c : Char) (h : isNumBodyChar c = true) :
    isJsSpace c = false := by
  cases hs : isJsSpace c
  · rfl
  · rw [space_not_numBody c hs] at h
    cases h

theorem letBody_not_space (c : Char) (h : isLetBodyChar c = true) :
    isJsSpace c = false := by
  cases hs : isJsSpace c
  · rfl
  · rw [space_not_letBody c hs] at h
    cases h

theorem num_head (r : List Char) (L : Nat) (h : numMatchLen r = some L) :
    ∀ ch, r[0]? = some ch → ch.isDigit = true := by
  intro ch hch
  obtain ⟨d1, d2, opt, rest, hr, hd1ne, hd1, _, _, _, _, _⟩ := num_sound r L h
  cases d1 with
  | nil => exact absurd rfl hd1ne
  | cons dh dt =>
    rw [hr] at hch
    simp only [List.cons_append, List.getElem?_cons_zero, Option.some.injEq] at hch
    subst hch
    exact hd1 dh (List.mem_cons_self dh dt)

theorem let_head (r : List Char) (L : Nat) (h : letMatchLen r = some L) :
    ∀ ch, r[0]? = some ch → ch = '(' := by
  intro ch hch
  obtain ⟨w, rest, hr, _, _, _⟩ := let_sound r L h
  rw [hr] at hch
  simp only [List.getElem?_cons_zero, Option.some.injEq] at hch
  exact hch.symm

theorem num_head_classes : ∀ r L, numMatchLen r = some L → ∀ ch, r[0]? = some ch →
    isJsSpace ch = false ∧ isAsciiLetter ch = false ∧ inBlockAlpha ch = false := by
  intro r L h ch hch
  have hd := num_head r L h ch hch
  refine ⟨digit_not_space ch hd, digit_not_letter ch hd, ?_⟩
  cases hb : inBlockAlpha ch
  · rfl
  · rw [block_not_digit ch hb] at hd
    cases hd

theorem let_head_classes : ∀ r L, letMatchLen r = some L → ∀ ch, r[0]? = some ch →
    isJsSpace ch = false ∧ isAsciiLetter ch = false ∧ inBlockAlpha ch = false := by
  intro r L h ch hch
  rw [let_head r L h ch hch]
  refine ⟨by decide, by decide, by decide⟩

theorem let_head_not_numBody : ∀ r L, letMatchLen r = some L →
    ∀ ch, r[0]? = some ch → isNumBodyChar ch = false := by
  intro r L h ch hch
  rw [let_head r L h ch hch]
  decide

theorem num_head_not_letBody : ∀ r L, numMatchLen r = some L →
    ∀ ch, r[0]? = some ch → isLetBodyChar ch = false := by
  intro r L h ch hch
  have hd := num_head r L h ch hch
  cases hb : isLetBodyChar ch
  · rfl
  · exfalso
    simp only [isLetBodyChar, Bool.or_eq_true, decide_eq_true_eq] at hb
    rcases hb with (h1 | h2) | hl
    · rw [h1] at hd
      exact absurd hd (by decide)
    · rw [h2] at hd
      exact absurd hd (by decide)
    · rw [letter_not_digit ch hl] at hd
      cases hd

theorem blockOK_br1 : BlockOK ("<br/>".data) := by
  refine ⟨by decide, by decide, by decide⟩

theorem blockOK_br2 : BlockOK ("<br/><br/>".data) := by
  refine ⟨by decide, by decide, by decide⟩

theorem pass_output_stable (mlen : List Char → Option Nat) (bodyChar : Char → Bool)
    (ins : List Char)
    (hdet : MatchDet mlen bodyChar)
    (hbsp : ∀ ch, bodyChar ch = true → isJsSpace ch = false)
    (hblt : ∀ ch, bodyChar ch = true → ch ≠ '<')
    (hhd : ∀ r L, mlen r = some L → ∀ ch, r[0]? = some ch →
      isJsSpace ch = false ∧ isAsciiLetter ch = false ∧ inBlockAlpha ch = false)
    (hinsOK : BlockOK ins)
    (v : List Char) :
    StableStr mlen hookTags (renderStr (annotate mlen hookTags ins v v.length 0)) := by
  have hbound : ∀ q L, mlen (v.drop q) = some L → q + L ≤ v.length ∧ 1 ≤ L := by
    intro q L h
    obtain ⟨h1, h2⟩ := matchdet_bound mlen bodyChar hdet v q L h
    exact ⟨h1, by omega⟩
  have horig : origStr (annotate mlen hookTags ins v v.length 0) = v := by
    have h := annotate_orig mlen hookTags ins v hbound v.length 0 (by omega)
    simpa using h
  have hinsne : ins ≠ [] := by
    intro h0
    have h1 := hinsOK.1
    rw [h0] at h1
    cases h1
  apply master_stable mlen bodyChar hdet hblt hhd
  · intro x hne
    obtain ⟨hins, _, _, _⟩ :=
      annotate_block mlen hookTags ins v hbound v.length 0 x hne
    rw [hins]
    exact hinsOK
  · intro x ch hne hchx
    obtain ⟨_, _, ⟨Lx, hLx⟩, _⟩ :=
      annotate_block mlen hookTags ins v hbound v.length 0 x hne
    rw [Nat.zero_add] at hLx
    rw [horig] at hchx
    have hch0 : (v.drop x)[0]? = some ch := by
      rw [List.getElem?_drop, Nat.add_zero]
      exact hchx
    obtain ⟨h1, h2, _⟩ := hhd _ _ hLx ch hch0
    exact ⟨h1, h2⟩
  · intro x hne q Lq hqm hand
    obtain ⟨hq1, hq2⟩ := hand
    obtain ⟨_, hr, _, _⟩ :=
      annotate_block mlen hookTags ins v hbound v.length 0 x hne
    rw [Nat.zero_add] at hr
    rw [horig] at hqm
    exact reach_free mlen bodyChar hdet hbsp v x hr ⟨q, Lq, hqm, hq1, hq2⟩
  · intro p L hm hfree hblkp
    rw [horig] at hm hfree ⊢
    refine ⟨?_, ?_⟩
    · cases hx : suppressedAt v p hookTags
      · exfalso
        have hplt : p < v.length := by
          obtain ⟨E, h3, hE2, hElen, _⟩ := hdet _ _ hm
          rw [List.length_drop] at hElen
          omega
        rcases reach_dichotomy mlen v (fun q L h => (hbound q L h).2) p (by omega)
          with hr | ⟨q, Lq, hqr, hqm, hq1, hq2⟩
        · have hv := annotate_visited mlen hookTags ins v hbound v.length 0 p L
            (by omega) hr hplt hm hx
          rw [Nat.sub_zero, hblkp] at hv
          exact hinsne hv.symm
        · exact hfree ⟨q, Lq, hqm, hq1, hq2⟩
      · rfl
    · intro x hne hxp
      obtain ⟨_, _, ⟨Lx, hLx⟩, _⟩ :=
        annotate_block mlen hookTags ins v hbound v.length 0 x hne
      rw [Nat.zero_add] at hLx
      refine sep_lemma mlen bodyChar hdet v x p Lx hLx hxp ?_ ?_
      · intro hlt
        exact hfree ⟨x, Lx, hLx, hxp, hlt⟩
      · intro ch hch
        have hch0 : (v.drop p)[0]? = some ch := by
          rw [List.getElem?_drop, Nat.add_zero]
          exact hch
        obtain ⟨h1, h2, _⟩ := hhd _ _ hm ch hch0
        exact ⟨h1, h2⟩

theorem pass_preserves_stable (mlenP : List Char → Option Nat) (bodyP : Char → Bool)
    (insP : List Char) (mlenQ : List Char → Option Nat) (bodyQ : Char → Bool)
    (hdetP : MatchDet mlenP bodyP) (hdetQ : MatchDet mlenQ bodyQ)
    (hbltQ : ∀ ch, bodyQ ch = true → ch ≠ '<')
    (hhdP : ∀ r L, mlenP r = some L → ∀ ch, r[0]? = some ch →
      isJsSpace ch = false ∧ isAsciiLetter ch = false ∧ inBlockAlpha ch = false)
    (hhdQ : ∀ r L, mlenQ r = some L → ∀ ch, r[0]? = some ch →
      isJsSpace ch = false ∧ isAsciiLetter ch = false ∧ inBlockAlpha ch = false)
    (hPheadQbody : ∀ r L, mlenP r = some L → ∀ ch, r[0]? = some ch →
      bodyQ ch = false)
    (hQheadPbody : ∀ r L, mlenQ r = some L → ∀ ch, r[0]? = some ch →
      bodyP ch = false)
    (hinsOK : BlockOK insP)
    (v : List Char) (hstabQ : StableStr mlenQ hookTags v) :
    StableStr mlenQ hookTags
      (renderStr (annotate mlenP hookTags insP v v.length 0)) := by
  have hboundP : ∀ q L, mlenP (v.drop q) = some L → q + L ≤ v.length ∧ 1 ≤ L := by
    intro q L h
    obtain ⟨h1, h2⟩ := matchdet_bound mlenP bodyP hdetP v q L h
    exact ⟨h1, by omega⟩
  have horig : origStr (annotate mlenP hookTags insP v v.length 0) = v := by
    have h := annotate_orig mlenP hookTags insP v hboundP v.length 0 (by omega)
    simpa using h
  apply master_stable mlenQ bodyQ hdetQ hbltQ hhdQ
  · intro x hne
    obtain ⟨hins, _, _, _⟩ :=
      annotate_block mlenP hookTags insP v hboundP v.length 0 x hne
    rw [hins]
    exact hinsOK
  · intro x ch hne hchx
    obtain ⟨_, _, ⟨Lx, hLx⟩, _⟩ :=
      annotate_block mlenP hookTags insP v hboundP v.length 0 x hne
    rw [Nat.zero_add] at hLx
    rw [horig] at hchx
    have hch0 : (v.drop x)[0]? = some ch := by
      rw [List.getElem?_drop, Nat.add_zero]
      exact hchx
    obtain ⟨h1, h2, _⟩ := hhdP _ _ hLx ch hch0
    exact ⟨h1, h2⟩
  · intro x hne q Lq hqm hand
    obtain ⟨hq1, hq2⟩ := hand
    obtain ⟨_, _, ⟨Lx, hLx⟩, _⟩ :=
      annotate_block mlenP hookTags insP v hboundP v.length 0 x hne
    rw [Nat.zero_add] at hLx
    rw [horig] at hqm
    refine head_not_inside mlenQ bodyQ hdetQ v q x Lq hqm hq1 ?_ hq2
    intro ch hch
    have hch0 : (v.drop x)[0]? = some ch := by
      rw [List.getElem?_drop, Nat.add_zero]
      exact hch
    exact hPheadQbody _ _ hLx ch hch0
  · intro p L hm hfree hblkp
    rw [horig] at hm hfree ⊢
    refine ⟨hstabQ p L hm hfree, ?_⟩
    intro x hne hxp
    obtain ⟨_, _, ⟨Lx, hLx⟩, _⟩ :=
      annotate_block mlenP hookTags insP v hboundP v.length 0 x hne
    rw [Nat.zero_add] at hLx
    refine sep_lemma mlenP bodyP hdetP v x p Lx hLx hxp ?_ ?_
    · refine head_not_inside mlenP bodyP hdetP v x p Lx hLx hxp ?_
      intro ch hch
      have hch0 : (v.drop p)[0]? = some ch := by
        rw [List.getElem?_drop, Nat.add_zero]
        exact hch
      exact hQheadPbody _ _ hm ch hch0
    · intro ch hch
      have hch0 : (v.drop p)[0]? = some ch := by
        rw [List.getElem?_drop, Nat.add_zero]
        exact hch
      obtain ⟨h1, h2, _⟩ := hhdQ _ _ hm ch hch0
      exact ⟨h1, h2⟩

theorem numPass_render (v : List Char) :
    renderStr (annotate numMatchLen hookTags ("<br/><br/>".data) v v.length 0)
      = jsReplace numMatchLen replNumHook v := by
  have hbound : ∀ q L, numMatchLen (v.drop q) = some L →
      q + L ≤ v.length ∧ 1 ≤ L := by
    intro q L h
    obtain ⟨h1, h2⟩ := matchdet_bound numMatchLen isNumBodyChar numMatchDet v q L h
    exact ⟨h1, by omega⟩
  exact annotate_render numMatchLen hookTags ("<br/><br/>".data) replNumHook v
    hbound (fun j L => rfl) v.length 0

theorem letPass_render (v : List Char) :
    renderStr (annotate letMatchLen hookTags ("<br/>".data) v v.length 0)
      = jsReplace letMatchLen replLetHook v := by
  have hbound : ∀ q L, letMatchLen (v.drop q) = some L →
      q + L ≤ v.length ∧ 1 ≤ L := by
    intro q L h
    obtain ⟨h1, h2⟩ := matchdet_bound letMatchLen isLetBodyChar letMatchDet v q L h
    exact ⟨h1, by omega⟩
  exact annotate_render letMatchLen hookTags ("<br/>".data) replLetHook v
    hbound (fun j L => rfl) v.length 0

theorem numPass_stable (v : List Char) :
    StableStr numMatchLen hookTags (jsReplace numMatchLen replNumHook v) := by
  rw [← numPass_render v]
  exact pass_output_stable numMatchLen isNumBodyChar ("<br/><br/>".data)
    numMatchDet numBody_not_space numBody_not_lt num_head_classes blockOK_br2 v

theorem letPass_stable (v : List Char) :
    StableStr letMatchLen hookTags (jsReplace letMatchLen replLetHook v) := by
  rw [← letPass_render v]
  exact pass_output_stable letMatchLen isLetBodyChar ("<br/>".data)
    letMatchDet letBody_not_space letBody_not_lt let_head_classes blockOK_br1 v

theorem letPass_preserves_numStable (v : List Char)
    (hstab : StableStr numMatchLen hookTags v) :
    StableStr numMatchLen hookTags (jsReplace letMatchLen replLetHook v) := by
  rw [← letPass_render v]
  exact pass_preserves_stable letMatchLen isLetBodyChar ("<br/>".data)
    numMatchLen isNumBodyChar letMatchDet numMatchDet numBody_not_lt
    let_head_classes num_head_classes let_head_not_numBody num_head_not_letBody
    blockOK_br1 v hstab

theorem numPass_id (v : List Char) (hstab : StableStr numMatchLen hookTags v) :
    jsReplace numMatchLen replNumHook v = v :=
  jsReplace_stable numMatchLen isNumBodyChar numMatchDet numBody_not_space
    replNumHook v (fun i L hsup => by simp [replNumHook, hsup, matchText]) hstab

theorem letPass_id (v : List Char) (hstab : StableStr letMatchLen hookTags v) :
    jsReplace letMatchLen replLetHook v = v :=
  jsReplace_stable letMatchLen isLetBodyChar letMatchDet letBody_not_space
    replLetHook v (fun i L hsup => by simp [replLetHook, hsup, matchText]) hstab

/-- C9: the `formatClauseBreaks` function exported from the contract-generation
hook is idempotent: for every input string `s`,
`formatClauseBreaks (formatClauseBreaks s) = formatClauseBreaks s`, so
re-formatting already-formatted content (as the hook does when it formats
stored content once on completion and again for display) changes nothing. -/
theorem formatClauseBreaks_idempotent (s : String) :
    formatClauseBreaks (formatClauseBreaks s) = formatClauseBreaks s := by
  have hnum_t := numPass_stable s.data
  have hlet_u := letPass_stable (jsReplace numMatchLen replNumHook s.data)
  have hnum_u := letPass_preserves_numStable
    (jsReplace numMatchLen replNumHook s.data) hnum_t
  show (⟨jsReplace letMatchLen replLetHook (jsReplace numMatchLen replNumHook
      (jsReplace letMatchLen replLetHook
        (jsReplace numMatchLen replNumHook s.data)))⟩ : String)
    = ⟨jsReplace letMatchLen replLetHook (jsReplace numMatchLen replNumHook s.data)⟩
  rw [numPass_id _ hnum_u, letPass_id _ hlet_u]

end FirstRead

